import Mathlib

/-!
Verification of the takenokowar game server (`src/server.js`) against its
natural-language specification.

The development shallowly embeds the server's data model and operations:

* the hex grid (`createMap`, `getHex`, `getNeighbors`),
* breadth-first pathfinding (`findPath`, a fuelled translation of the
  `while` loop; the fuel of 1000 is shown sufficient by the completeness
  theorem, since each loop iteration either pops an element or marks at
  least one of the at most 240 cell ids visited),
* the game state (`GameState`), unit spawning, the socket handlers
  (`joinGame`, `recruit`, `orderMove`, `orderFrontline`, `disconnect`)
  and the tick loop (`tick`).

JavaScript numbers are modelled as exact decimal rationals (`DecRat`,
kernel-computable; every numeric literal in the source is a decimal and the
only numeric operations are `+`, `-`, `*` and comparisons) and integer cell
coordinates as `ℤ`.
Fallible JavaScript code (property access on `undefined`) is modelled with
`Except String`.  `Math.random()` driven choices are oracle parameters.
-/

/-! ## Grid constants and cells -/

def MAP_W : Nat := 20

def MAP_H : Nat := 12

structure Hex where
  id : Nat
  q : Int
  r : Int
  owner : String
deriving DecidableEq, Repr

/-- `createMap`: a `MAP_W × MAP_H` grid, ids counted up with `q` outer and
`r` inner, the left half owned by `"KIN"`, the right half by `"TAK"`. -/
def createMap : List Hex :=
  (List.range MAP_W).flatMap (fun q =>
    (List.range MAP_H).map (fun r =>
      { id := q * MAP_H + r, q := (q : Int), r := (r : Int),
        owner := if q < MAP_W / 2 then "KIN" else "TAK" }))

/-- `getHex`: first cell of the list with the given coordinates
(`Array.prototype.find`, `undefined` modelled as `none`). -/
def getHex (hs : List Hex) (q r : Int) : Option Hex :=
  hs.find? (fun h => h.q == q && h.r == r)

/-- `getNeighbors`: the six candidate coordinates (horizontals, verticals and
the row-parity dependent diagonals), keeping those that exist on the map. -/
def getNeighbors (hs : List Hex) (h : Hex) : List Hex :=
  [ (h.q + 1, h.r), (h.q - 1, h.r), (h.q, h.r + 1), (h.q, h.r - 1),
    (h.q + (if h.r % 2 ≠ 0 then 1 else -1), h.r + 1),
    (h.q + (if h.r % 2 ≠ 0 then 1 else -1), h.r - 1)
  ].filterMap (fun c => getHex hs c.1 c.2)

/-! ## Breadth-first pathfinding -/

/-- One neighbour-enqueueing pass of the BFS loop body: each not yet visited
neighbour is appended to the queue with its path extended and its id marked
visited (`visited.add` / `queue.push`). -/
def enqueueNeighbors (p : List Hex) (ns : List Hex)
    (acc : List (Hex × List Hex) × List Nat) : List (Hex × List Hex) × List Nat :=
  ns.foldl
    (fun acc n =>
      if n.id ∈ acc.2 then acc
      else (acc.1 ++ [(n, p ++ [n])], n.id :: acc.2))
    acc

/-- The fuelled BFS `while` loop of `findPath`.  A popped cell matching the
destination returns its path; a path longer than 15 is not expanded
("Limit range"); otherwise unvisited neighbours are enqueued. -/
def findPathAux (hs : List Hex) (e : Hex) :
    Nat → List (Hex × List Hex) → List Nat → Option (List Hex)
  | 0, _, _ => none
  | _ + 1, [], _ => none
  | fuel + 1, (h, p) :: rest, visited =>
    if h.id = e.id then some p
    else if p.length > 15 then findPathAux hs e fuel rest visited
    else
      let st := enqueueNeighbors p (getNeighbors hs h) (rest, visited)
      findPathAux hs e fuel st.1 st.2

/-- `findPath`: `[]` when either endpoint is missing (`return []`), otherwise
BFS from the start; `none` models the `null` "unreachable" result. -/
def findPath (hs : List Hex) (startHex endHex : Option Hex) : Option (List Hex) :=
  match startHex, endHex with
  | some s, some e => findPathAux hs e 1000 [(s, [])] [s.id]
  | _, _ => some []

/-! ## Routes over the neighbour relation (specification side) -/

/-- Adjacency of cells, as computed by `getNeighbors`. -/
def Adj (hs : List Hex) (x y : Hex) : Prop := y ∈ getNeighbors hs x

instance (hs : List Hex) (x y : Hex) : Decidable (Adj hs x y) :=
  inferInstanceAs (Decidable (y ∈ getNeighbors hs x))

/-- The cell a path (excluding its start `a`) ends at: the last cell of `p`,
or `a` itself for the empty path. -/
def routeEnd (a : Hex) (p : List Hex) : Hex := p.getLastD a

/-- A map with the standard cell ids: the grid's id sequence `0, …, 239`.
Conquest only rewrites owners, so every in-game map satisfies this. -/
def MapIds (hs : List Hex) : Prop :=
  hs.map (fun h => h.id) = List.range (MAP_W * MAP_H)

/-- Path length of a queue entry. -/
def plen (x : Hex × List Hex) : Nat := x.2.length

/-! ### Basic facts about the map and neighbours -/

theorem getHex_eq_some {hs : List Hex} {q r : Int} {h : Hex}
    (hfind : getHex hs q r = some h) : h ∈ hs ∧ h.q = q ∧ h.r = r := by
  have hmem := List.mem_of_find?_eq_some hfind
  have hp := List.find?_some hfind
  simp only [Bool.and_eq_true, beq_iff_eq] at hp
  exact ⟨hmem, hp.1, hp.2⟩

theorem getNeighbors_subset {hs : List Hex} {h : Hex} :
    ∀ n ∈ getNeighbors hs h, n ∈ hs := by
  intro n hn
  simp only [getNeighbors, List.mem_filterMap] at hn
  obtain ⟨c, _, hc⟩ := hn
  exact (getHex_eq_some hc).1

set_option maxRecDepth 4000 in
theorem createMap_ids : createMap.map (fun h => h.id) = List.range (MAP_W * MAP_H) := by
  decide

theorem createMap_MapIds : MapIds createMap := createMap_ids

theorem MapIds_id_lt {hs : List Hex} (hm : MapIds hs) :
    ∀ h ∈ hs, h.id < MAP_W * MAP_H := by
  intro h hh
  have : h.id ∈ hs.map (fun h => h.id) := List.mem_map_of_mem _ hh
  rw [hm] at this
  exact List.mem_range.mp this

theorem MapIds_inj {hs : List Hex} (hm : MapIds hs) :
    ∀ x ∈ hs, ∀ y ∈ hs, x.id = y.id → x = y := by
  have hnd : (hs.map (fun h => h.id)).Nodup := by rw [hm]; exact List.nodup_range _
  exact fun x hx y hy hxy => List.inj_on_of_nodup_map hnd hx hy hxy

theorem MapIds_length {hs : List Hex} (hm : MapIds hs) :
    hs.length = MAP_W * MAP_H := by
  have := congrArg List.length hm
  simpa using this

/-! ### Route lemmas -/

theorem routeEnd_cons (a n : Hex) (p : List Hex) :
    routeEnd a (n :: p) = routeEnd n p := by
  cases p <;> simp [routeEnd, List.getLastD]

theorem routeEnd_concat (a n : Hex) : ∀ p : List Hex, routeEnd a (p ++ [n]) = n := by
  intro p
  induction p generalizing a with
  | nil => rfl
  | cons x xs ih => rw [List.cons_append, routeEnd_cons, ih]

theorem routeEnd_mem {b : Hex} {p : List Hex} :
    ∀ {a : Hex}, p ≠ [] → routeEnd a p = b → b ∈ p := by
  induction p with
  | nil => intro a hne _; exact absurd rfl hne
  | cons x xs ih =>
    intro a _ hend
    rw [routeEnd_cons] at hend
    cases hxs : xs with
    | nil => subst hxs; exact hend ▸ List.mem_singleton_self _
    | cons y ys =>
      subst hxs
      exact List.mem_cons_of_mem _ (ih (by simp) hend)

theorem routeEnd_append_cons (a b : Hex) (l₁ l₂ : List Hex) :
    routeEnd a (l₁ ++ b :: l₂) = routeEnd b l₂ := by
  induction l₁ generalizing a with
  | nil => exact routeEnd_cons a b l₂
  | cons x xs ih => rw [List.cons_append, routeEnd_cons, ih]

theorem getLastD_cons_eq {α : Type} (a x : α) (xs : List α) :
    (x :: xs).getLastD a = xs.getLastD x := by
  cases xs <;> simp [List.getLastD]

theorem chain_snoc {α : Type} {R : α → α → Prop} :
    ∀ (p : List α) {a n : α},
      List.Chain R a p → R (p.getLastD a) n → List.Chain R a (p ++ [n]) := by
  intro p
  induction p with
  | nil => intro a n _ hr; exact List.Chain.cons hr List.Chain.nil
  | cons x xs ih =>
    intro a n hc hr
    rw [List.chain_cons] at hc
    rw [List.cons_append, List.chain_cons]
    rw [getLastD_cons_eq] at hr
    exact ⟨hc.1, ih hc.2 hr⟩

/-! ### The enqueue pass: structural specification -/

theorem enqueueNeighbors_spec (p : List Hex) :
    ∀ (ns : List Hex) (q : List (Hex × List Hex)) (v : List Nat),
      ∃ tl : List (Hex × List Hex),
        (enqueueNeighbors p ns (q, v)).1 = q ++ tl ∧
        (∀ x ∈ tl, x.1 ∈ ns ∧ x.2 = p ++ [x.1] ∧
          x.1.id ∈ (enqueueNeighbors p ns (q, v)).2 ∧ x.1.id ∉ v) ∧
        (∀ i, i ∈ (enqueueNeighbors p ns (q, v)).2 ↔ i ∈ v ∨ ∃ x ∈ tl, x.1.id = i) ∧
        (v.Nodup → (enqueueNeighbors p ns (q, v)).2.Nodup) ∧
        ((enqueueNeighbors p ns (q, v)).2.length + q.length
          = v.length + (enqueueNeighbors p ns (q, v)).1.length) ∧
        (∀ n ∈ ns, n.id ∈ (enqueueNeighbors p ns (q, v)).2) := by
  intro ns
  induction ns with
  | nil =>
    intro q v
    exact ⟨[], by simp [enqueueNeighbors]⟩
  | cons n ns ih =>
    intro q v
    by_cases hv : n.id ∈ v
    · have hstep : enqueueNeighbors p (n :: ns) (q, v) = enqueueNeighbors p ns (q, v) := by
        simp [enqueueNeighbors, hv]
      obtain ⟨tl, h1, h2, h3, h4, h5, h6⟩ := ih q v
      refine ⟨tl, ?_, ?_, ?_, ?_, ?_, ?_⟩ <;> rw [hstep]
      · exact h1
      · exact fun x hx => ⟨List.mem_cons_of_mem _ (h2 x hx).1, (h2 x hx).2.1,
          (h2 x hx).2.2.1, (h2 x hx).2.2.2⟩
      · exact h3
      · exact h4
      · exact h5
      · intro m hm
        rcases List.mem_cons.mp hm with rfl | hm'
        · exact (h3 m.id).mpr (Or.inl hv)
        · exact h6 m hm'
    · have hstep : enqueueNeighbors p (n :: ns) (q, v)
          = enqueueNeighbors p ns (q ++ [(n, p ++ [n])], n.id :: v) := by
        simp [enqueueNeighbors, hv]
      obtain ⟨tl, h1, h2, h3, h4, h5, h6⟩ := ih (q ++ [(n, p ++ [n])]) (n.id :: v)
      refine ⟨(n, p ++ [n]) :: tl, ?_, ?_, ?_, ?_, ?_, ?_⟩ <;> rw [hstep]
      · rw [h1, List.append_assoc]; rfl
      · intro x hx
        rcases List.mem_cons.mp hx with rfl | hx'
        · refine ⟨List.mem_cons_self _ _, rfl, ?_, hv⟩
          exact (h3 n.id).mpr (Or.inl (List.mem_cons_self _ _))
        · obtain ⟨ha, hb, hc, hd⟩ := h2 x hx'
          exact ⟨List.mem_cons_of_mem _ ha, hb, hc,
            fun hmem => hd (List.mem_cons_of_mem _ hmem)⟩
      · intro i
        rw [h3 i]
        constructor
        · rintro (hi | ⟨x, hx, hxi⟩)
          · rcases List.mem_cons.mp hi with rfl | hi'
            · exact Or.inr ⟨(n, p ++ [n]), List.mem_cons_self _ _, rfl⟩
            · exact Or.inl hi'
          · exact Or.inr ⟨x, List.mem_cons_of_mem _ hx, hxi⟩
        · rintro (hi | ⟨x, hx, hxi⟩)
          · exact Or.inl (List.mem_cons_of_mem _ hi)
          · rcases List.mem_cons.mp hx with rfl | hx'
            · exact Or.inl (hxi ▸ List.mem_cons_self _ _)
            · exact Or.inr ⟨x, hx', hxi⟩
      · intro hnd
        exact h4 (List.nodup_cons.mpr ⟨hv, hnd⟩)
      · simp only [List.length_append, List.length_cons, List.length_nil] at h5 ⊢
        omega
      · intro m hm
        rcases List.mem_cons.mp hm with rfl | hm'
        · exact (h3 m.id).mpr (Or.inl (List.mem_cons_self _ _))
        · exact h6 m hm'

/-! ### BFS loop invariant -/

/-- Invariant of the BFS loop state (`queue`, `visited`), for start `a` and
destination `e`: queue entries are map cells reached by routes from `a` of
at most the enqueue depth 16, recorded as visited; queue path lengths are
sorted and spread over at most two consecutive values; visited ids are
distinct map ids; every visited id is still queued or fully expanded —
except in the final phase in which all remaining entries sit at the depth
cap and are only drained; a visited destination is still queued (popping it
returns). -/
structure BfsInv (hs : List Hex) (a e : Hex)
    (Q : List (Hex × List Hex)) (V : List Nat) : Prop where
  qmem : ∀ x ∈ Q, x.1 ∈ hs
  qchain : ∀ x ∈ Q, List.Chain (Adj hs) a x.2
  qend : ∀ x ∈ Q, routeEnd a x.2 = x.1
  qvis : ∀ x ∈ Q, x.1.id ∈ V
  qcap : ∀ x ∈ Q, plen x ≤ 16
  qsort : List.Pairwise (fun x y => plen x ≤ plen y) Q
  qbnd : ∀ f rest, Q = f :: rest → ∀ x ∈ rest, plen x ≤ plen f + 1
  vnodup : V.Nodup
  vmem : ∀ i ∈ V, ∃ m ∈ hs, m.id = i
  closed : (∀ i ∈ V, (∃ x ∈ Q, x.1.id = i) ∨
      (∃ m ∈ hs, m.id = i ∧ ∀ n ∈ getNeighbors hs m, n.id ∈ V)) ∨
    (∀ x ∈ Q, plen x = 16)
  evis : e.id ∈ V → ∃ x ∈ Q, x.1.id = e.id

/-- A queue entry that still leads to the destination within total budget
`L`: the witness that the search has not lost the route. -/
def BfsWit (hs : List Hex) (e : Hex) (L : Nat) (Q : List (Hex × List Hex)) : Prop :=
  ∃ x ∈ Q, ∃ r, List.Chain (Adj hs) x.1 r ∧ routeEnd x.1 r = e ∧ plen x + r.length ≤ L

/-- Walking the remaining route from an already-visited cell: it meets a
still-queued cell (or the queued destination), which witnesses the route. -/
theorem bfs_walk {hs : List Hex} {e : Hex} (he : e ∈ hs)
    (hinj : ∀ x ∈ hs, ∀ y ∈ hs, x.id = y.id → x = y)
    {V : List Nat} {Q : List (Hex × List Hex)} {d L : Nat}
    (hqmem : ∀ x ∈ Q, x.1 ∈ hs)
    (hclosed : ∀ i ∈ V, (∃ x ∈ Q, x.1.id = i) ∨
      (∃ m ∈ hs, m.id = i ∧ ∀ n ∈ getNeighbors hs m, n.id ∈ V))
    (hevis : e.id ∈ V → ∃ x ∈ Q, x.1.id = e.id)
    (hqbnd : ∀ x ∈ Q, plen x ≤ d + 1) :
    ∀ (rm : List Hex) (m : Hex), m ∈ hs → m.id ∈ V →
      List.Chain (Adj hs) m rm → routeEnd m rm = e →
      d + 1 + rm.length ≤ L → BfsWit hs e L Q := by
  intro rm
  induction rm with
  | nil =>
    intro m hm hmV _ hend hlen
    have hme : m = e := hend
    obtain ⟨x, hxQ, hxid⟩ := hevis (hme ▸ hmV)
    have hx1 : x.1 = e := hinj x.1 (hqmem x hxQ) e he hxid
    refine ⟨x, hxQ, [], List.Chain.nil, hx1, ?_⟩
    have := hqbnd x hxQ
    simp only [List.length_nil] at hlen ⊢
    omega
  | cons n rm ih =>
    intro m hm hmV hchain hend hlen
    rw [List.chain_cons] at hchain
    have hadj : n ∈ getNeighbors hs m := hchain.1
    have hn_hs : n ∈ hs := getNeighbors_subset n hadj
    rcases hclosed m.id hmV with ⟨x, hxQ, hxid⟩ | ⟨m', hm', hm'id, hexp⟩
    · have hx1 : x.1 = m := hinj x.1 (hqmem x hxQ) m hm hxid
      refine ⟨x, hxQ, n :: rm, ?_, ?_, ?_⟩
      · rw [hx1]; exact List.chain_cons.mpr ⟨hadj, hchain.2⟩
      · rw [hx1]; exact hend
      · have := hqbnd x hxQ
        simp only [List.length_cons] at hlen ⊢
        omega
    · have hm'm : m' = m := hinj m' hm' m hm hm'id
      subst hm'm
      have hnV : n.id ∈ V := hexp n hadj
      have hend' : routeEnd n rm = e := by rw [routeEnd_cons] at hend; exact hend
      apply ih n hn_hs hnV hchain.2 hend'
      simp only [List.length_cons] at hlen
      omega

/-! ### Soundness: any returned path is a capped route to the destination -/

theorem findPathAux_sound {hs : List Hex} {a e : Hex}
    (hinj : ∀ x ∈ hs, ∀ y ∈ hs, x.id = y.id → x = y) (he : e ∈ hs) :
    ∀ (fuel : Nat) (Q : List (Hex × List Hex)) (V : List Nat),
      (∀ x ∈ Q, x.1 ∈ hs) → (∀ x ∈ Q, List.Chain (Adj hs) a x.2) →
      (∀ x ∈ Q, routeEnd a x.2 = x.1) → (∀ x ∈ Q, plen x ≤ 16) →
      ∀ p, findPathAux hs e fuel Q V = some p →
        List.Chain (Adj hs) a p ∧ routeEnd a p = e ∧ p.length ≤ 16 := by
  intro fuel
  induction fuel with
  | zero => intro Q V _ _ _ _ p hp; simp [findPathAux] at hp
  | succ fuel ih =>
    intro Q V hmem hchain hend hcap p hp
    match Q with
    | [] => simp [findPathAux] at hp
    | (h, ph) :: rest =>
      rw [findPathAux] at hp
      have hfront : (h, ph) ∈ (h, ph) :: rest := List.mem_cons_self _ _
      by_cases hid : h.id = e.id
      · rw [if_pos hid] at hp
        have hpe : ph = p := Option.some.inj hp
        subst hpe
        have hhe : h = e := hinj h (hmem _ hfront) e he hid
        exact ⟨hchain _ hfront, hhe ▸ hend _ hfront, hcap _ hfront⟩
      · rw [if_neg hid] at hp
        by_cases hlen : ph.length > 15
        · rw [if_pos hlen] at hp
          exact ih rest V (fun x hx => hmem x (List.mem_cons_of_mem _ hx))
            (fun x hx => hchain x (List.mem_cons_of_mem _ hx))
            (fun x hx => hend x (List.mem_cons_of_mem _ hx))
            (fun x hx => hcap x (List.mem_cons_of_mem _ hx)) p hp
        · rw [if_neg hlen] at hp
          simp only at hp
          obtain ⟨tl, htl1, htl2, _, _, _, _⟩ :=
            enqueueNeighbors_spec ph (getNeighbors hs h) rest V
          have hin_tl : ∀ x ∈ tl, x.1 ∈ hs ∧ x.2 = ph ++ [x.1] ∧ Adj hs h x.1 := by
            intro x hx
            obtain ⟨hx1, hx2, _, _⟩ := htl2 x hx
            exact ⟨getNeighbors_subset _ hx1, hx2, hx1⟩
          refine ih _ _ ?_ ?_ ?_ ?_ p hp
          · intro x hx
            rw [htl1] at hx
            rcases List.mem_append.mp hx with hx' | hx'
            · exact hmem x (List.mem_cons_of_mem _ hx')
            · exact (hin_tl x hx').1
          · intro x hx
            rw [htl1] at hx
            rcases List.mem_append.mp hx with hx' | hx'
            · exact hchain x (List.mem_cons_of_mem _ hx')
            · obtain ⟨_, hx2, hadj⟩ := hin_tl x hx'
              rw [hx2]
              refine chain_snoc ph (hchain _ hfront) ?_
              have : routeEnd a ph = h := hend _ hfront
              rw [show ph.getLastD a = routeEnd a ph from rfl, this]
              exact hadj
          · intro x hx
            rw [htl1] at hx
            rcases List.mem_append.mp hx with hx' | hx'
            · exact hend x (List.mem_cons_of_mem _ hx')
            · obtain ⟨_, hx2, _⟩ := hin_tl x hx'
              rw [hx2, routeEnd_concat]
          · intro x hx
            rw [htl1] at hx
            rcases List.mem_append.mp hx with hx' | hx'
            · exact hcap x (List.mem_cons_of_mem _ hx')
            · obtain ⟨_, hx2, _⟩ := hin_tl x hx'
              have : plen x = ph.length + 1 := by
                simp [plen, hx2]
              omega

/-! ### Completeness and optimality of the BFS loop -/

theorem nodup_lt_length_le (l : List Nat) (N : Nat)
    (hnd : l.Nodup) (hlt : ∀ i ∈ l, i < N) : l.length ≤ N := by
  classical
  have h1 : l.length = l.toFinset.card := (List.toFinset_card_of_nodup hnd).symm
  have h2 : l.toFinset ⊆ Finset.range N := by
    intro i hi
    exact Finset.mem_range.mpr (hlt i (List.mem_toFinset.mp hi))
  calc l.length = l.toFinset.card := h1
    _ ≤ (Finset.range N).card := Finset.card_le_card h2
    _ = N := Finset.card_range N

theorem pairwise_of_forall_mem {α : Type} {R : α → α → Prop} :
    ∀ (l : List α), (∀ x ∈ l, ∀ y ∈ l, R x y) → List.Pairwise R l := by
  intro l
  induction l with
  | nil => intro _; exact List.Pairwise.nil
  | cons a l ih =>
    intro h
    refine List.pairwise_cons.mpr ⟨?_, ?_⟩
    · exact fun b hb => h a (List.mem_cons_self _ _) b (List.mem_cons_of_mem _ hb)
    · exact ih (fun x hx y hy =>
        h x (List.mem_cons_of_mem _ hx) y (List.mem_cons_of_mem _ hy))

/-- Main BFS loop lemma: from an invariant state that still holds a witness
route of total length at most `L ≤ 16`, the loop returns a path of length at
most `L` (in particular it does not run out of fuel). -/
theorem findPathAux_reaches {hs : List Hex} {a e : Hex}
    (hm : MapIds hs) (he : e ∈ hs) {L : Nat} (hL : L ≤ 16) :
    ∀ (fuel : Nat) (Q : List (Hex × List Hex)) (V : List Nat),
      BfsInv hs a e Q V → BfsWit hs e L Q →
      fuel ≥ Q.length + (MAP_W * MAP_H - V.length) →
      ∃ p, findPathAux hs e fuel Q V = some p ∧ p.length ≤ L := by
  have hinj := MapIds_inj hm
  intro fuel
  induction fuel with
  | zero =>
    intro Q V _ hwit hfuel
    obtain ⟨x, hxQ, _⟩ := hwit
    have : 0 < Q.length := List.length_pos_of_mem hxQ
    omega
  | succ fuel ih =>
    intro Q V hinv hwit hfuel
    match Q with
    | [] =>
      obtain ⟨x, hxQ, _⟩ := hwit
      exact absurd hxQ (List.not_mem_nil x)
    | (h, ph) :: rest =>
      have hfront : (h, ph) ∈ (h, ph) :: rest := List.mem_cons_self _ _
      have hsort := List.pairwise_cons.mp hinv.qsort
      by_cases hid : h.id = e.id
      · -- the destination is popped: its path is at most the witness length
        refine ⟨ph, ?_, ?_⟩
        · rw [findPathAux, if_pos hid]
        · obtain ⟨x, hxQ, r, _, _, hrlen⟩ := hwit
          have hple : plen (h, ph) ≤ plen x := by
            rcases List.mem_cons.mp hxQ with rfl | hx'
            · exact le_refl _
            · exact hsort.1 x hx'
          simp only [plen] at hple hrlen
          omega
      · by_cases hskip : ph.length > 15
        · -- depth-capped entry is dropped; all remaining entries sit at the cap
          have hall16 : ∀ x ∈ rest, plen x = 16 := by
            intro x hx
            have h1 := hinv.qcap x (List.mem_cons_of_mem _ hx)
            have h2 := hsort.1 x hx
            have h3 := hinv.qcap _ hfront
            simp only [plen] at h1 h2 h3 ⊢
            omega
          have hinv' : BfsInv hs a e rest V := by
            refine ⟨?_, ?_, ?_, ?_, ?_, ?_, ?_, hinv.vnodup, hinv.vmem, ?_, ?_⟩
            · exact fun x hx => hinv.qmem x (List.mem_cons_of_mem _ hx)
            · exact fun x hx => hinv.qchain x (List.mem_cons_of_mem _ hx)
            · exact fun x hx => hinv.qend x (List.mem_cons_of_mem _ hx)
            · exact fun x hx => hinv.qvis x (List.mem_cons_of_mem _ hx)
            · exact fun x hx => hinv.qcap x (List.mem_cons_of_mem _ hx)
            · exact hsort.2
            · intro f rest' heq x hx
              have hf : f ∈ rest := heq ▸ List.mem_cons_self _ _
              have hx' : x ∈ rest := heq ▸ List.mem_cons_of_mem _ hx
              have := hall16 f hf
              have := hall16 x hx'
              omega
            · exact Or.inr hall16
            · intro hev
              obtain ⟨x, hxQ, hxid⟩ := hinv.evis hev
              rcases List.mem_cons.mp hxQ with rfl | hx'
              · exact absurd hxid hid
              · exact ⟨x, hx', hxid⟩
          have hwit' : BfsWit hs e L rest := by
            obtain ⟨x, hxQ, r, hrchain, hrend, hrlen⟩ := hwit
            rcases List.mem_cons.mp hxQ with rfl | hx'
            · -- the witness cannot be the capped front
              match r with
              | [] =>
                have hxe : (h, ph).1 = e := hrend
                exact absurd (congrArg Hex.id hxe) hid
              | n :: r' =>
                exfalso
                simp only [plen, List.length_cons] at hrlen
                omega
            · exact ⟨x, hx', r, hrchain, hrend, hrlen⟩
          obtain ⟨p, hp, hplen⟩ := ih rest V hinv' hwit' (by
            simp only [List.length_cons] at hfuel
            omega)
          refine ⟨p, ?_, hplen⟩
          rw [findPathAux, if_neg hid, if_pos hskip]
          exact hp
        · -- expansion step
          have hcap15 : ph.length ≤ 15 := by omega
          obtain ⟨tl, htl1, htl2, htl3, htl4, htl5, htl6⟩ :=
            enqueueNeighbors_spec ph (getNeighbors hs h) rest V
          set q' := (enqueueNeighbors ph (getNeighbors hs h) (rest, V)).1 with hq'
          set v' := (enqueueNeighbors ph (getNeighbors hs h) (rest, V)).2 with hv'
          have hVsub : ∀ i ∈ V, i ∈ v' := fun i hi => (htl3 i).mpr (Or.inl hi)
          have htlprop : ∀ x ∈ tl, x.1 ∈ getNeighbors hs h ∧ x.2 = ph ++ [x.1] ∧
              x.1.id ∈ v' ∧ x.1.id ∉ V := htl2
          have htl_hs : ∀ x ∈ tl, x.1 ∈ hs :=
            fun x hx => getNeighbors_subset _ (htlprop x hx).1
          have htl_len : ∀ x ∈ tl, plen x = ph.length + 1 := by
            intro x hx
            simp [plen, (htlprop x hx).2.1]
          have hphend : routeEnd a ph = h := hinv.qend _ hfront
          have hrest_bnd : ∀ x ∈ rest, plen x ≤ ph.length + 1 := by
            intro x hx
            have := hinv.qbnd (h, ph) rest rfl x hx
            simpa [plen] using this
          have hq'_bnd : ∀ x ∈ q', plen x ≤ ph.length + 1 := by
            intro x hx
            rw [htl1] at hx
            rcases List.mem_append.mp hx with hx' | hx'
            · exact hrest_bnd x hx'
            · exact le_of_eq (htl_len x hx')
          have hq'mem : ∀ x ∈ q', x.1 ∈ hs := by
            intro x hx
            rw [htl1] at hx
            rcases List.mem_append.mp hx with hx' | hx'
            · exact hinv.qmem x (List.mem_cons_of_mem _ hx')
            · exact htl_hs x hx'
          have hclosed' : ∀ i ∈ v', (∃ x ∈ q', x.1.id = i) ∨
              (∃ m ∈ hs, m.id = i ∧ ∀ n ∈ getNeighbors hs m, n.id ∈ v') := by
            have hphase1 : ∀ i ∈ V, (∃ x ∈ (h, ph) :: rest, x.1.id = i) ∨
                (∃ m ∈ hs, m.id = i ∧ ∀ n ∈ getNeighbors hs m, n.id ∈ V) := by
              rcases hinv.closed with hcl | hcl
              · exact hcl
              · exfalso
                have := hcl _ hfront
                simp only [plen] at this
                omega
            intro i hi
            rcases (htl3 i).mp hi with hiV | ⟨x, hx, hxi⟩
            · rcases hphase1 i hiV with ⟨x, hxQ, hxi⟩ | ⟨m, hmhs, hmi, hexp⟩
              · rcases List.mem_cons.mp hxQ with rfl | hx'
                · -- the front was just expanded
                  right
                  exact ⟨h, hinv.qmem _ hfront, hxi, fun n hn => htl6 n hn⟩
                · left
                  exact ⟨x, by rw [htl1]; exact List.mem_append_left _ hx', hxi⟩
              · right
                exact ⟨m, hmhs, hmi, fun n hn => hVsub _ (hexp n hn)⟩
            · left
              exact ⟨x, by rw [htl1]; exact List.mem_append_right _ hx, hxi⟩
          have hevis' : e.id ∈ v' → ∃ x ∈ q', x.1.id = e.id := by
            intro hev
            rcases (htl3 e.id).mp hev with hiV | ⟨x, hx, hxi⟩
            · obtain ⟨x, hxQ, hxi⟩ := hinv.evis hiV
              rcases List.mem_cons.mp hxQ with rfl | hx'
              · exact absurd hxi hid
              · exact ⟨x, by rw [htl1]; exact List.mem_append_left _ hx', hxi⟩
            · exact ⟨x, by rw [htl1]; exact List.mem_append_right _ hx, hxi⟩
          have hinv' : BfsInv hs a e q' v' := by
            refine ⟨hq'mem, ?_, ?_, ?_, ?_, ?_, ?_, htl4 hinv.vnodup, ?_, Or.inl hclosed', hevis'⟩
            · intro x hx
              rw [htl1] at hx
              rcases List.mem_append.mp hx with hx' | hx'
              · exact hinv.qchain x (List.mem_cons_of_mem _ hx')
              · obtain ⟨hadj, hx2, _, _⟩ := htlprop x hx'
                rw [hx2]
                refine chain_snoc ph (hinv.qchain _ hfront) ?_
                rw [show ph.getLastD a = routeEnd a ph from rfl, hphend]
                exact hadj
            · intro x hx
              rw [htl1] at hx
              rcases List.mem_append.mp hx with hx' | hx'
              · exact hinv.qend x (List.mem_cons_of_mem _ hx')
              · rw [(htlprop x hx').2.1, routeEnd_concat]
            · intro x hx
              rw [htl1] at hx
              rcases List.mem_append.mp hx with hx' | hx'
              · exact hVsub _ (hinv.qvis x (List.mem_cons_of_mem _ hx'))
              · exact (htlprop x hx').2.2.1
            · intro x hx
              rw [htl1] at hx
              rcases List.mem_append.mp hx with hx' | hx'
              · exact hinv.qcap x (List.mem_cons_of_mem _ hx')
              · rw [htl_len x hx']; omega
            · rw [htl1]
              rw [List.pairwise_append]
              refine ⟨hsort.2, ?_, ?_⟩
              · refine pairwise_of_forall_mem tl ?_
                intro x hx y hy
                rw [htl_len x hx, htl_len y hy]
              · intro x hx y hy
                rw [htl_len y hy]
                exact le_trans (hrest_bnd x hx) (le_refl _)
            · intro f rest' heq x hx
              have hfq : f ∈ q' := heq ▸ List.mem_cons_self _ _
              have hxq : x ∈ q' := heq ▸ List.mem_cons_of_mem _ hx
              have hxb := hq'_bnd x hxq
              -- the new front is at least as long as the old one
              have hfb : ph.length ≤ plen f := by
                rw [htl1] at hfq
                rcases List.mem_append.mp hfq with hf' | hf'
                · have := hsort.1 f hf'
                  simpa [plen] using this
                · rw [htl_len f hf']; omega
              omega
            · intro i hi
              rcases (htl3 i).mp hi with hiV | ⟨x, hx, hxi⟩
              · exact hinv.vmem i hiV
              · exact ⟨x.1, htl_hs x hx, hxi⟩
          have hwit' : BfsWit hs e L q' := by
            obtain ⟨x, hxQ, r, hrchain, hrend, hrlen⟩ := hwit
            rcases List.mem_cons.mp hxQ with rfl | hx'
            · -- the witness was the expanded front: walk the remaining route
              match r with
              | [] =>
                exact absurd (congrArg Hex.id (hrend : (h, ph).1 = e)) hid
              | n :: r' =>
                have hadj : n ∈ getNeighbors hs h := (List.chain_cons.mp hrchain).1
                have hn_hs : n ∈ hs := getNeighbors_subset n hadj
                have hnv' : n.id ∈ v' := htl6 n hadj
                refine bfs_walk he hinj hq'mem hclosed' hevis' hq'_bnd r' n hn_hs hnv'
                  (List.chain_cons.mp hrchain).2 ?_ ?_
                · rw [routeEnd_cons] at hrend; exact hrend
                · simp only [plen, List.length_cons] at hrlen
                  omega
            · refine ⟨x, ?_, r, hrchain, hrend, hrlen⟩
              rw [htl1]
              exact List.mem_append_left _ hx'
          have hv'card : v'.length ≤ MAP_W * MAP_H := by
            refine nodup_lt_length_le v' _ (htl4 hinv.vnodup) ?_
            intro i hi
            obtain ⟨m, hmhs, hmi⟩ := hinv'.vmem i hi
            exact hmi ▸ MapIds_id_lt hm m hmhs
          have hcount : v'.length + rest.length = V.length + q'.length := htl5
          have hq'len : q'.length = rest.length + tl.length := by
            rw [htl1, List.length_append]
          obtain ⟨p, hp, hplen⟩ := ih q' v' hinv' hwit' (by
            simp only [List.length_cons] at hfuel
            omega)
          refine ⟨p, ?_, hplen⟩
          rw [findPathAux, if_neg hid, if_neg hskip]
          exact hp

/-! ### Claim C1 -/

/-- Claim C1: for every pair of map cells `a`, `b`, any path returned by
`findPath` is a chain of `getNeighbors`-adjacent cells that excludes the
start, ends at (and, when `a ≠ b`, includes) the destination, and whose
length is minimal among all routes from `a` to `b`; whenever some route of
length at most the enqueue depth cap 16 exists a path is returned, and when
no such route exists the search signals unreachable (`null`/`none`). -/
theorem findPath_shortest_route (hs : List Hex) (hm : MapIds hs) :
    ∀ a ∈ hs, ∀ b ∈ hs,
      (∀ p, findPath hs (some a) (some b) = some p →
        List.Chain (Adj hs) a p ∧ routeEnd a p = b ∧ a ∉ p ∧ p.length ≤ 16 ∧
        (a ≠ b → p ≠ [] ∧ b ∈ p) ∧
        (∀ q, List.Chain (Adj hs) a q → routeEnd a q = b → p.length ≤ q.length)) ∧
      ((∃ q, List.Chain (Adj hs) a q ∧ routeEnd a q = b ∧ q.length ≤ 16) →
        ∃ p, findPath hs (some a) (some b) = some p) ∧
      ((¬ ∃ q, List.Chain (Adj hs) a q ∧ routeEnd a q = b ∧ q.length ≤ 16) →
        findPath hs (some a) (some b) = none) := by
  intro a ha b hb
  have hinj := MapIds_inj hm
  have hfp : findPath hs (some a) (some b) = findPathAux hs b 1000 [(a, [])] [a.id] := rfl
  have hfrontmem : (a, ([] : List Hex)) ∈ [(a, ([] : List Hex))] := List.mem_singleton_self _
  have initInv : BfsInv hs a b [(a, [])] [a.id] := by
    refine ⟨?_, ?_, ?_, ?_, ?_, ?_, ?_, ?_, ?_, ?_, ?_⟩
    · intro x hx; rw [List.mem_singleton.mp hx]; exact ha
    · intro x hx; rw [List.mem_singleton.mp hx]; exact List.Chain.nil
    · intro x hx; rw [List.mem_singleton.mp hx]; rfl
    · intro x hx; rw [List.mem_singleton.mp hx]; exact List.mem_singleton_self _
    · intro x hx; rw [List.mem_singleton.mp hx]; simp [plen]
    · exact List.pairwise_singleton _ _
    · intro f rest heq x hx
      have : rest = [] := (List.cons.injEq _ _ _ _ ▸ heq.symm).2
      rw [this] at hx
      exact absurd hx (List.not_mem_nil x)
    · exact List.nodup_singleton _
    · intro i hi
      rw [List.mem_singleton.mp hi]
      exact ⟨a, ha, rfl⟩
    · left
      intro i hi
      rw [List.mem_singleton.mp hi]
      exact Or.inl ⟨(a, []), List.mem_singleton_self _, rfl⟩
    · intro hev
      exact ⟨(a, []), List.mem_singleton_self _, (List.mem_singleton.mp hev).symm⟩
  have Hreach : ∀ q : List Hex, List.Chain (Adj hs) a q → routeEnd a q = b →
      q.length ≤ 16 →
      ∃ p, findPath hs (some a) (some b) = some p ∧ p.length ≤ q.length := by
    intro q hqc hqe hq16
    rw [hfp]
    refine findPathAux_reaches hm hb hq16 1000 _ _ initInv
      ⟨(a, []), hfrontmem, q, hqc, hqe, by simp [plen]⟩ ?_
    have : MAP_W * MAP_H = 240 := by decide
    simp only [List.length_cons, List.length_nil, this]
    omega
  have Hsound : ∀ p, findPath hs (some a) (some b) = some p →
      List.Chain (Adj hs) a p ∧ routeEnd a p = b ∧ p.length ≤ 16 := by
    intro p hp
    rw [hfp] at hp
    refine findPathAux_sound hinj hb 1000 _ _ ?_ ?_ ?_ ?_ p hp
    · intro x hx; rw [List.mem_singleton.mp hx]; exact ha
    · intro x hx; rw [List.mem_singleton.mp hx]; exact List.Chain.nil
    · intro x hx; rw [List.mem_singleton.mp hx]; rfl
    · intro x hx; rw [List.mem_singleton.mp hx]; simp [plen]
  refine ⟨?_, ?_, ?_⟩
  · intro p hp
    obtain ⟨hchain, hend, hcap⟩ := Hsound p hp
    have hmin : ∀ q, List.Chain (Adj hs) a q → routeEnd a q = b →
        p.length ≤ q.length := by
      intro q hqc hqe
      by_cases hq16 : q.length ≤ 16
      · obtain ⟨p', hp', hlen'⟩ := Hreach q hqc hqe hq16
        rw [hp] at hp'
        rw [Option.some.inj hp']
        exact hlen'
      · omega
    refine ⟨hchain, hend, ?_, hcap, ?_, hmin⟩
    · intro hamem
      obtain ⟨l₁, l₂, rfl⟩ := List.append_of_mem hamem
      have hc2 : List.Chain (Adj hs) a l₂ := (List.chain_split.mp hchain).2
      have he2 : routeEnd a l₂ = b := by
        rw [routeEnd_append_cons] at hend
        exact hend
      have := hmin l₂ hc2 he2
      simp only [List.length_append, List.length_cons] at this
      omega
    · intro hne
      have hpnil : p ≠ [] := by
        intro hnil
        rw [hnil] at hend
        exact hne hend
      exact ⟨hpnil, routeEnd_mem hpnil hend⟩
  · rintro ⟨q, hqc, hqe, hq16⟩
    obtain ⟨p, hp, _⟩ := Hreach q hqc hqe hq16
    exact ⟨p, hp⟩
  · intro hnone
    cases hres : findPath hs (some a) (some b) with
    | none => rfl
    | some p =>
      obtain ⟨hchain, hend, hcap⟩ := Hsound p hres
      exact absurd ⟨p, hchain, hend, hcap⟩ hnone

/-- Witness for C1 at a concrete input: cells `(2,2)` and `(5,2)` of the
standard map (the spec's scenario pair) are joined by a 3-step route, so the
theorem yields a returned path. -/
theorem findPath_shortest_route_witness :
    ∃ p, findPath createMap (some ⟨26, 2, 2, "KIN"⟩) (some ⟨62, 5, 2, "KIN"⟩)
      = some p := by
  have h := findPath_shortest_route createMap createMap_MapIds
    ⟨26, 2, 2, "KIN"⟩ (by decide) ⟨62, 5, 2, "KIN"⟩ (by decide)
  exact h.2.1 ⟨[⟨38, 3, 2, "KIN"⟩, ⟨50, 4, 2, "KIN"⟩, ⟨62, 5, 2, "KIN"⟩],
    List.Chain.cons (by decide) (List.Chain.cons (by decide)
      (List.Chain.cons (by decide) List.Chain.nil)),
    by decide, by decide⟩

/-! ## Game data model -/

/-! ## Exact decimal numbers

`Rat`'s arithmetic is `@[irreducible]`, so a concrete simulation state could
not be evaluated by `decide`.  The game's numbers are therefore modelled as
exact decimal fractions `mant / 10 ^ exp` with structural arithmetic; `toRat`
interprets them in `DecRat` and is a homomorphism for the operations used. -/

structure DecRat where
  mant : Int
  exp : Nat
deriving DecidableEq, Repr

/-- Strip trailing zeros so that results have a canonical representation. -/
def DecRat.norm : Int → Nat → DecRat
  | m, 0 => ⟨m, 0⟩
  | m, e + 1 => if m % 10 = 0 then DecRat.norm (m / 10) e else ⟨m, e + 1⟩

def DecRat.add (x y : DecRat) : DecRat :=
  let k := max x.exp y.exp
  DecRat.norm (x.mant * 10 ^ (k - x.exp) + y.mant * 10 ^ (k - y.exp)) k

def DecRat.sub (x y : DecRat) : DecRat :=
  let k := max x.exp y.exp
  DecRat.norm (x.mant * 10 ^ (k - x.exp) - y.mant * 10 ^ (k - y.exp)) k

def DecRat.mul (x y : DecRat) : DecRat :=
  DecRat.norm (x.mant * y.mant) (x.exp + y.exp)

instance : Add DecRat := ⟨DecRat.add⟩

instance : Sub DecRat := ⟨DecRat.sub⟩

instance : Mul DecRat := ⟨DecRat.mul⟩

instance : LE DecRat := ⟨fun x y => x.mant * 10 ^ y.exp ≤ y.mant * 10 ^ x.exp⟩

instance : LT DecRat := ⟨fun x y => x.mant * 10 ^ y.exp < y.mant * 10 ^ x.exp⟩

instance (x y : DecRat) : Decidable (x ≤ y) :=
  inferInstanceAs (Decidable (x.mant * 10 ^ y.exp ≤ y.mant * 10 ^ x.exp))

instance (x y : DecRat) : Decidable (x < y) :=
  inferInstanceAs (Decidable (x.mant * 10 ^ y.exp < y.mant * 10 ^ x.exp))

instance (n : Nat) : OfNat DecRat n := ⟨⟨n, 0⟩⟩

instance : OfScientific DecRat :=
  ⟨fun m b e => if b then DecRat.norm m e else ⟨(m : Int) * 10 ^ e, 0⟩⟩

/-- Interpretation into `ℚ`. -/
def DecRat.toRat (x : DecRat) : ℚ := (x.mant : ℚ) / 10 ^ x.exp

theorem DecRat.norm_toRat : ∀ (e : Nat) (m : Int),
    (DecRat.norm m e).toRat = (m : ℚ) / 10 ^ e := by
  intro e
  induction e with
  | zero => intro m; rfl
  | succ e ih =>
    intro m
    rw [DecRat.norm]
    by_cases h : m % 10 = 0
    · rw [if_pos h, ih]
      have hdvd : (10 : Int) ∣ m := Int.dvd_of_emod_eq_zero h
      obtain ⟨c, rfl⟩ := hdvd
      rw [Int.mul_ediv_cancel_left c (by norm_num)]
      push_cast
      rw [pow_succ]
      field_simp
      ring
    · rw [if_neg h]
      rfl

theorem DecRat.add_toRat (x y : DecRat) : (x + y).toRat = x.toRat + y.toRat := by
  show (DecRat.add x y).toRat = _
  unfold DecRat.add
  rw [DecRat.norm_toRat]
  unfold DecRat.toRat
  have h1 : (10 : ℚ) ^ (max x.exp y.exp - x.exp) * 10 ^ x.exp = 10 ^ (max x.exp y.exp) := by
    rw [← pow_add]
    congr 1
    omega
  have h2 : (10 : ℚ) ^ (max x.exp y.exp - y.exp) * 10 ^ y.exp = 10 ^ (max x.exp y.exp) := by
    rw [← pow_add]
    congr 1
    omega
  push_cast
  rw [div_add_div _ _ (by positivity) (by positivity), div_eq_div_iff (by positivity) (by positivity)]
  linear_combination ((x.mant : ℚ) * 10 ^ y.exp) * h1 + ((y.mant : ℚ) * 10 ^ x.exp) * h2

theorem DecRat.sub_toRat (x y : DecRat) : (x - y).toRat = x.toRat - y.toRat := by
  show (DecRat.sub x y).toRat = _
  unfold DecRat.sub
  rw [DecRat.norm_toRat]
  unfold DecRat.toRat
  have h1 : (10 : ℚ) ^ (max x.exp y.exp - x.exp) * 10 ^ x.exp = 10 ^ (max x.exp y.exp) := by
    rw [← pow_add]
    congr 1
    omega
  have h2 : (10 : ℚ) ^ (max x.exp y.exp - y.exp) * 10 ^ y.exp = 10 ^ (max x.exp y.exp) := by
    rw [← pow_add]
    congr 1
    omega
  push_cast
  rw [div_sub_div _ _ (by positivity) (by positivity), div_eq_div_iff (by positivity) (by positivity)]
  linear_combination ((x.mant : ℚ) * 10 ^ y.exp) * h1 - ((y.mant : ℚ) * 10 ^ x.exp) * h2

theorem DecRat.le_iff_toRat (x y : DecRat) : x ≤ y ↔ x.toRat ≤ y.toRat := by
  show x.mant * 10 ^ y.exp ≤ y.mant * 10 ^ x.exp ↔ _
  unfold DecRat.toRat
  rw [div_le_div_iff₀ (by positivity) (by positivity)]
  constructor
  · intro h
    exact_mod_cast h
  · intro h
    exact_mod_cast h

theorem DecRat.lt_iff_toRat (x y : DecRat) : x < y ↔ x.toRat < y.toRat := by
  show x.mant * 10 ^ y.exp < y.mant * 10 ^ x.exp ↔ _
  unfold DecRat.toRat
  rw [div_lt_div_iff₀ (by positivity) (by positivity)]
  constructor
  · intro h
    exact_mod_cast h
  · intro h
    exact_mod_cast h

theorem DecRat.ofNat_toRat (n : Nat) : (OfNat.ofNat n : DecRat).toRat = n := by
  show ((n : Int) : ℚ) / 10 ^ 0 = n
  simp


structure UnitStats where
  name : String
  hp : DecRat
  atk : DecRat
  defense : DecRat
  spd : DecRat
  cost : DecRat
deriving DecidableEq, Repr

/-- The `UNIT_TYPES` stat table (`def` field renamed `defense`). -/
def UNIT_TYPES : String → Option UnitStats := fun key =>
  if key = "inf" then some ⟨"歩兵", 100, 12, 20, 0.2, 100⟩
  else if key = "tank" then some ⟨"戦車", 150, 30, 15, 0.4, 300⟩
  else none

structure GameUnit where
  id : Nat
  faction : String
  type : String
  stats : UnitStats
  hp : DecRat
  maxHp : DecRat
  q : Int
  r : Int
  drawX : DecRat
  drawY : DecRat
  targetHexId : Option Nat
  path : List Hex
  state : String
  progress : DecRat
  assignment : String
deriving DecidableEq, Repr

structure Country where
  pp : DecRat
  mp : DecRat
  eq : DecRat
  color : String
deriving DecidableEq, Repr

/-- The two entries of `gameState.countries`; `countries[f]` for any other
string is JavaScript `undefined`, modelled as `none` in `countryOf`. -/
structure Countries where
  KIN : Country
  TAK : Country
deriving DecidableEq, Repr

def countryOf (cs : Countries) (f : String) : Option Country :=
  if f = "KIN" then some cs.KIN else if f = "TAK" then some cs.TAK else none

def setCountry (cs : Countries) (f : String) (c : Country) : Countries :=
  if f = "KIN" then { cs with KIN := c }
  else if f = "TAK" then { cs with TAK := c }
  else cs

structure Player where
  name : String
  faction : String
  role : String
deriving DecidableEq, Repr

structure GameState where
  players : List (String × Player)
  hexes : List Hex
  units : List GameUnit
  countries : Countries
  isRunning : Bool
  unitIdCounter : Nat
deriving DecidableEq, Repr

def initialGameState : GameState :=
  { players := [], hexes := [], units := [],
    countries := ⟨⟨50, 5000, 2000, "#e67e22"⟩, ⟨50, 5000, 2000, "#27ae60"⟩⟩,
    isRunning := false, unitIdCounter := 0 }

def lookupPlayer (ps : List (String × Player)) (sid : String) : Option Player :=
  (ps.find? (fun x => x.1 == sid)).map (fun x => x.2)

def setPlayer (ps : List (String × Player)) (sid : String) (info : Player) :
    List (String × Player) :=
  if ps.any (fun x => x.1 == sid) then
    ps.map (fun x => if x.1 == sid then (sid, info) else x)
  else ps ++ [(sid, info)]

/-- `spawnUnit`.  The JS reads `type.hp` only after the `getHex` guard, so a
missing cell is a silent no-op while an unknown type key on an existing cell
is a `TypeError`. -/
def spawnUnit (faction : String) (q r : Int) (typeKey : String) (s : GameState) :
    Except String GameState :=
  match getHex s.hexes q r with
  | none => .ok s
  | some h =>
    match UNIT_TYPES typeKey with
    | none => .error "TypeError: unit type is undefined"
    | some t =>
      let divNum := s.unitIdCounter % 6 + 1
      let u : GameUnit :=
        { id := s.unitIdCounter, faction := faction, type := typeKey, stats := t,
          hp := t.hp, maxHp := t.hp, q := h.q, r := h.r, drawX := 0, drawY := 0,
          targetHexId := none, path := [], state := "idle", progress := 0,
          assignment := "Marshal_" ++ toString divNum }
      .ok { s with units := s.units ++ [u], unitIdCounter := s.unitIdCounter + 1 }

def resetGame (s : GameState) : Except String GameState := do
  let s0 := { s with
    hexes := createMap,
    units := ([] : List GameUnit),
    countries := (⟨⟨50, 5000, 2000, "#e67e22"⟩, ⟨50, 5000, 2000, "#27ae60"⟩⟩ : Countries),
    isRunning := true }
  let s1 ← (List.range 6).foldlM
    (fun st i => spawnUnit "KIN" 2 (2 + (i : Int)) "inf" st) s0
  let s2 ← (List.range 6).foldlM
    (fun st i => spawnUnit "TAK" ((MAP_W : Int) - 3) (2 + (i : Int)) "inf" st) s1
  return s2

def joinGame (sid : String) (info : Player) (s : GameState) : Except String GameState :=
  let s1 := { s with players := setPlayer s.players sid info }
  if !s1.isRunning then resetGame s1 else .ok s1

def disconnect (sid : String) (s : GameState) : GameState :=
  { s with players := s.players.filter (fun x => x.1 != sid) }

/-- The `recruit` handler.  `randR` is the `Math.floor(Math.random()*MAP_H)`
spawn row.  `UNIT_TYPES[type].cost` is read before the resource check, so an
unknown type key is a `TypeError`; so is `c.mp` for an unknown faction. -/
def recruit (sid : String) (ty : String) (randR : Int) (s : GameState) :
    Except String GameState :=
  match lookupPlayer s.players sid with
  | none => .ok s
  | some p =>
    if p.role ≠ "Production" ∧ p.role ≠ "Supreme" then .ok s
    else
      match UNIT_TYPES ty with
      | none => .error "TypeError: cannot read cost of undefined"
      | some t =>
        match countryOf s.countries p.faction with
        | none => .error "TypeError: cannot read mp of undefined"
        | some c =>
          if c.mp ≥ 100 ∧ c.eq ≥ t.cost then
            let c1 := { c with mp := c.mp - 100, eq := c.eq - t.cost }
            let s1 := { s with countries := setCountry s.countries p.faction c1 }
            let q : Int := if p.faction = "KIN" then 1 else (MAP_W : Int) - 2
            spawnUnit p.faction q randR ty s1
          else .ok s

def orderMove (sid : String) (unitIds : List Nat) (targetQ targetR : Int)
    (s : GameState) : GameState :=
  match lookupPlayer s.players sid with
  | none => s
  | some p =>
    match getHex s.hexes targetQ targetR with
    | none => s
    | some targetHex =>
      { s with units := s.units.map (fun u =>
          if unitIds.contains u.id ∧ u.faction = p.faction then
            if p.role = "Supreme" ∨ p.role = u.assignment then
              match findPath s.hexes (getHex s.hexes u.q u.r) (some targetHex) with
              | some path => { u with path := path, state := "moving" }
              | none => u
            else u
          else u) }

/-- The frontline target cells: the existing cells among `hexIds`, in order
(`map(...).filter(h => h)` in the source). -/
def flTargets (hexes : List Hex) (hexIds : List Nat) : List Hex :=
  hexIds.filterMap (fun i => hexes.find? (fun h => h.id == i))

/-- One iteration of the `orderFrontline` unit loop: the accumulator carries
the (unchanged, in-order) unit list and the round-robin `targetIdx`, which
is incremented only for authorized units. -/
def flStep (p : Player) (unitIds : List Nat) (hexes : List Hex)
    (targets : List Hex) (acc : List GameUnit × Nat) (u : GameUnit) :
    List GameUnit × Nat :=
  if unitIds.contains u.id ∧ u.faction = p.faction then
    if p.role = "Supreme" ∨ p.role = u.assignment then
      match findPath hexes (getHex hexes u.q u.r)
          targets[acc.2 % targets.length]? with
      | some path =>
        (acc.1 ++ [{ u with path := path, state := "moving" }], acc.2 + 1)
      | none => (acc.1 ++ [u], acc.2 + 1)
    else (acc.1 ++ [u], acc.2)
  else (acc.1 ++ [u], acc.2)

/-- The `orderFrontline` handler: targets are the existing cells among
`hexIds`, authorized units are assigned round-robin via `targetIdx`. -/
def orderFrontline (sid : String) (unitIds : List Nat) (hexIds : List Nat)
    (s : GameState) : GameState :=
  match lookupPlayer s.players sid with
  | none => s
  | some p =>
    let targets := flTargets s.hexes hexIds
    if targets.length = 0 then s
    else
      { s with units :=
          (s.units.foldl (flStep p unitIds s.hexes targets) ([], 0)).1 }

/-! ## The tick loop -/

/-- Per-tick resource accrual: `pp += 0.1`, `eq += 1` for both factions
(`mp` is not touched by the tick). -/
def accrueResources (s : GameState) : GameState :=
  let k := s.countries.KIN
  let t := s.countries.TAK
  let k1 := { k with pp := k.pp + 0.1, eq := k.eq + 1 }
  let t1 := { t with pp := t.pp + 0.1, eq := t.eq + 1 }
  { s with countries := ⟨k1, t1⟩ }

/-- Index of the first list element satisfying the predicate
(`Array.prototype.find`, by index so the found element can be updated). -/
def findIndex (p : GameUnit → Bool) : List GameUnit → Option Nat
  | [] => none
  | u :: l => if p u then some 0 else (findIndex p l).map (fun k => k + 1)

/-- Conquest on move completion: the entered cell's owner is set to the
mover's faction if it differs. -/
def conquerHex (hexes : List Hex) (q r : Int) (faction : String) : List Hex :=
  match getHex hexes q r with
  | some cH =>
    if cH.owner ≠ faction then
      hexes.map (fun h => if h.id = cH.id then { h with owner := faction } else h)
    else hexes
  | none => hexes

/-- The AI fallback of the tick body: a faction/division combination with no
connected controlling player, an idle unit and a fired 5% roll (the oracle
`ai`) receives a path toward a random row deep in enemy territory. -/
def aiAdjust (ai : Nat → Bool × Int) (i : Nat) (st : GameState) (u : GameUnit) :
    GameUnit :=
  let hasPlayer := st.players.any (fun sp =>
    sp.2.faction == u.faction && (sp.2.role == "Supreme" || sp.2.role == u.assignment))
  if ¬hasPlayer ∧ u.state = "idle" ∧ (ai i).1 then
    let targetQ : Int := if u.faction = "KIN" then (MAP_W : Int) - 2 else 1
    match findPath st.hexes (getHex st.hexes u.q u.r)
        (getHex st.hexes targetQ (ai i).2) with
    | some path => { u with path := path, state := "moving" }
    | none => u
  else u

/-- The movement/combat resolution of the tick body for the (AI-adjusted)
unit `u1` at index `i` of `st1`.  A blocking enemy on the next path cell
zeroes the mover's progress, loses `atk × 0.5` and deals `atk × 0.2` back;
otherwise progress advances by `spd`, and on reaching `1.0` the move commits
(position update, path pop, conquest, idle transition on an emptied path). -/
def moveResolve (i : Nat) (st1 : GameState) (u1 : GameUnit) : GameState :=
  if u1.state = "moving" then
    match u1.path with
    | [] => st1
    | nextHex :: restPath =>
      match findIndex (fun e =>
          e.q == nextHex.q && e.r == nextHex.r && e.faction != u1.faction) st1.units with
      | some j =>
        match st1.units[j]? with
        | none => st1
        | some enemy =>
          let u2 := { u1 with progress := (0 : DecRat), hp := u1.hp - enemy.stats.atk * 0.2 }
          let enemy2 := { enemy with hp := enemy.hp - u1.stats.atk * 0.5 }
          { st1 with units := (st1.units.set i u2).set j enemy2 }
      | none =>
        let prog := u1.progress + u1.stats.spd
        if prog ≥ 1 then
          let u2 := { u1 with
            q := nextHex.q, r := nextHex.r, path := restPath, progress := (0 : DecRat),
            state := if restPath.length = 0 then "idle" else u1.state }
          { st1 with
            units := st1.units.set i u2,
            hexes := conquerHex st1.hexes nextHex.q nextHex.r u1.faction }
        else
          { st1 with units := st1.units.set i { u1 with progress := prog } }
  else st1

/-- One iteration of the tick's `units.forEach` body for the unit at index
`i`: AI fallback, write-back, then movement/combat. -/
def unitStep (ai : Nat → Bool × Int) (i : Nat) (st : GameState) : GameState :=
  match st.units[i]? with
  | none => st
  | some u =>
    let u1 := aiAdjust ai i st u
    let st1 := { st with units := st.units.set i u1 }
    moveResolve i st1 u1

/-- The tick's whole `units.forEach` pass (unit count is constant during the
pass, so iterating the initial index range is the `forEach` semantics). -/
def unitsPhase (ai : Nat → Bool × Int) (s : GameState) : GameState :=
  (List.range s.units.length).foldl (fun st i => unitStep ai i st) s

/-- Cleanup: dead units (`hp ≤ 0`) are dropped, once, after the whole pass. -/
def cleanupUnits (s : GameState) : GameState :=
  { s with units := s.units.filter (fun u => decide (u.hp > 0)) }

/-- One tick: resource accrual, the per-unit pass, cleanup (broadcast has no
state effect).  `ai` is the `Math.random` oracle: for each unit index,
whether the 5% AI roll fires and the random target row. -/
def tick (ai : Nat → Bool × Int) (s : GameState) : GameState :=
  if !s.isRunning then s
  else cleanupUnits (unitsPhase ai (accrueResources s))

/-- The oracle under which no AI roll fires. -/
def noAI : Nat → Bool × Int := fun _ => (false, 0)

/-- States reachable from the initial module state by any sequence of socket
events and ticks (an `Except.error` models a thrown `TypeError`, which ends
the process rather than stepping). -/
inductive Reach : GameState → Prop where
  | init : Reach initialGameState
  | joinStep {s s' : GameState} {sid : String} {info : Player} :
      Reach s → joinGame sid info s = .ok s' → Reach s'
  | recruitStep {s s' : GameState} {sid ty : String} {rr : Int} :
      Reach s → recruit sid ty rr s = .ok s' → Reach s'
  | moveStep {s : GameState} {sid : String} {ids : List Nat} {tq tr : Int} :
      Reach s → Reach (orderMove sid ids tq tr s)
  | frontStep {s : GameState} {sid : String} {ids hids : List Nat} :
      Reach s → Reach (orderFrontline sid ids hids s)
  | tickStep {s : GameState} {ai : Nat → Bool × Int} :
      Reach s → Reach (tick ai s)
  | discStep {s : GameState} {sid : String} :
      Reach s → Reach (disconnect sid s)

/-! ## List and fold helper lemmas -/

theorem list_set_self {α : Type} :
    ∀ (l : List α) (i : Nat) (a : α), l[i]? = some a → l.set i a = l := by
  intro l
  induction l with
  | nil => intro i a h; simp at h
  | cons x xs ih =>
    intro i a h
    cases i with
    | zero =>
      simp only [List.getElem?_cons_zero, Option.some.injEq] at h
      rw [← h]
      rfl
    | succ i =>
      simp only [List.getElem?_cons_succ] at h
      simp [List.set, ih i a h]

theorem set_getElem?_eq {α : Type} :
    ∀ (l : List α) (i : Nat) (a : α), i < l.length → (l.set i a)[i]? = some a := by
  intro l
  induction l with
  | nil => intro i a h; simp at h
  | cons x xs ih =>
    intro i a h
    cases i with
    | zero => simp [List.set]
    | succ i =>
      simp only [List.length_cons] at h
      simpa [List.set] using ih i a (by omega)

theorem set_getElem?_ne {α : Type} :
    ∀ (l : List α) (i j : Nat) (a : α), i ≠ j → (l.set i a)[j]? = l[j]? := by
  intro l
  induction l with
  | nil => intro i j a _; simp
  | cons x xs ih =>
    intro i j a hne
    cases i with
    | zero =>
      cases j with
      | zero => exact absurd rfl hne
      | succ j => simp [List.set]
    | succ i =>
      cases j with
      | zero => simp [List.set]
      | succ j => simpa [List.set] using ih i j a (fun h => hne (by rw [h]))

theorem mem_set_or {α : Type} :
    ∀ (l : List α) (i : Nat) (v y : α), y ∈ l.set i v → y ∈ l ∨ y = v := by
  intro l
  induction l with
  | nil => intro i v y h; simp at h
  | cons x xs ih =>
    intro i v y h
    cases i with
    | zero =>
      rcases List.mem_cons.mp h with rfl | h'
      · exact Or.inr rfl
      · exact Or.inl (List.mem_cons_of_mem _ h')
    | succ i =>
      rcases List.mem_cons.mp h with rfl | h'
      · exact Or.inl (List.mem_cons_self _ _)
      · rcases ih i v y h' with h'' | h''
        · exact Or.inl (List.mem_cons_of_mem _ h'')
        · exact Or.inr h''

theorem map_set_comm {α β : Type} (f : α → β) :
    ∀ (l : List α) (i : Nat) (v : α), (l.set i v).map f = (l.map f).set i (f v) := by
  intro l
  induction l with
  | nil => intro i v; rfl
  | cons x xs ih =>
    intro i v
    cases i with
    | zero => rfl
    | succ i => simp [List.set, ih]

theorem findIndex_eq_none_iff {p : GameUnit → Bool} :
    ∀ {l : List GameUnit}, findIndex p l = none ↔ ∀ x ∈ l, p x = false := by
  intro l
  induction l with
  | nil => simp [findIndex]
  | cons x xs ih =>
    constructor
    · intro h y hy
      rw [findIndex] at h
      by_cases hx : p x
      · simp [hx] at h
      · rcases List.mem_cons.mp hy with rfl | hy'
        · exact Bool.not_eq_true _ ▸ (by simpa using hx)
        · simp only [hx, if_neg, Bool.false_eq_true, Option.map_eq_none'] at h
          exact ih.mp (by simpa using h) y hy'
    · intro h
      rw [findIndex]
      have hx := h x (List.mem_cons_self _ _)
      simp only [hx, Bool.false_eq_true, if_false, Option.map_eq_none']
      exact ih.mpr (fun y hy => h y (List.mem_cons_of_mem _ hy))

theorem findIndex_eq_some_spec {p : GameUnit → Bool} :
    ∀ {l : List GameUnit} {j : Nat}, findIndex p l = some j →
      ∃ x, l[j]? = some x ∧ p x = true := by
  intro l
  induction l with
  | nil => intro j h; simp [findIndex] at h
  | cons x xs ih =>
    intro j h
    rw [findIndex] at h
    by_cases hx : p x
    · simp only [hx, if_true] at h
      rw [← Option.some.inj h]
      exact ⟨x, by simp, hx⟩
    · simp only [hx, Bool.false_eq_true, if_false] at h
      cases hj : findIndex p xs with
      | none => rw [hj] at h; simp at h
      | some k =>
        rw [hj] at h
        simp only [Option.map_some', Option.some.injEq] at h
        obtain ⟨y, hy, hpy⟩ := ih hj
        rw [← h]
        exact ⟨y, by simpa using hy, hpy⟩

theorem foldl_preserves {σ β : Type} (g : σ → β → σ) (P : σ → Prop)
    (h : ∀ st b, P st → P (g st b)) :
    ∀ (l : List β) (st : σ), P st → P (l.foldl g st) := by
  intro l
  induction l with
  | nil => intro st hst; exact hst
  | cons b l ih => intro st hst; exact ih (g st b) (h st b hst)

theorem foldlM_except_preserves {σ β : Type} (g : σ → β → Except String σ)
    (P : σ → Prop) (h : ∀ st b st', g st b = .ok st' → P st → P st') :
    ∀ (l : List β) (st st' : σ), l.foldlM g st = .ok st' → P st → P st' := by
  intro l
  induction l with
  | nil =>
    intro st st' heq hst
    simp only [List.foldlM_nil] at heq
    cases heq
    exact hst
  | cons b l ih =>
    intro st st' heq hst
    rw [List.foldlM_cons] at heq
    cases hgb : g st b with
    | error msg =>
      rw [hgb] at heq
      exact Except.noConfusion heq
    | ok st1 =>
      rw [hgb] at heq
      exact ih st1 st' heq (h st b st1 hgb hst)

/-! ## Structural lemmas for the tick body -/
theorem getElem?_mem {α : Type} :
    ∀ {l : List α} {i : Nat} {a : α}, l[i]? = some a → a ∈ l := by
  intro l
  induction l with
  | nil => intro i a h; simp at h
  | cons x xs ih =>
    intro i a h
    cases i with
    | zero =>
      simp only [List.getElem?_cons_zero, Option.some.injEq] at h
      exact h ▸ List.mem_cons_self _ _
    | succ i =>
      simp only [List.getElem?_cons_succ] at h
      exact List.mem_cons_of_mem _ (ih h)

theorem aiAdjust_not_idle (ai : Nat → Bool × Int) (i : Nat) (st : GameState)
    (u : GameUnit) (h : u.state ≠ "idle") : aiAdjust ai i st u = u := by
  simp [aiAdjust, h]

theorem aiAdjust_no_roll (ai : Nat → Bool × Int) (i : Nat) (st : GameState)
    (u : GameUnit) (h : (ai i).1 = false) : aiAdjust ai i st u = u := by
  simp [aiAdjust, h]

theorem aiAdjust_cases (ai : Nat → Bool × Int) (i : Nat) (st : GameState)
    (u : GameUnit) :
    aiAdjust ai i st u = u ∨
    ∃ pth, aiAdjust ai i st u = { u with path := pth, state := "moving" } := by
  by_cases hidle : u.state = "idle"
  case neg => exact Or.inl (aiAdjust_not_idle ai i st u hidle)
  case pos =>
    cases hroll : (ai i).1 with
    | false => exact Or.inl (aiAdjust_no_roll ai i st u hroll)
    | true =>
      cases hpl : (st.players.any fun sp =>
          sp.2.faction == u.faction && (sp.2.role == "Supreme" || sp.2.role == u.assignment)) with
      | true => exact Or.inl (by simp [aiAdjust, hpl])
      | false =>
        cases hfp : findPath st.hexes (getHex st.hexes u.q u.r)
            (getHex st.hexes (if u.faction = "KIN" then (MAP_W : Int) - 2 else 1) (ai i).2) with
        | some pth =>
          exact Or.inr ⟨pth, by simp [aiAdjust, hidle, hroll, hpl, hfp]⟩
        | none =>
          exact Or.inl (by simp [aiAdjust, hidle, hroll, hpl, hfp])

def combatMover (u enemy : GameUnit) : GameUnit :=
  { u with progress := 0, hp := u.hp - enemy.stats.atk * 0.2 }

def combatTarget (u enemy : GameUnit) : GameUnit :=
  { enemy with hp := enemy.hp - u.stats.atk * 0.5 }

def commitMover (u : GameUnit) (nh : Hex) (rest : List Hex) : GameUnit :=
  { u with
    q := nh.q, r := nh.r, path := rest, progress := 0,
    state := if rest.length = 0 then "idle" else u.state }

def stepMover (u : GameUnit) : GameUnit :=
  { u with progress := u.progress + u.stats.spd }

theorem unitStep_combat (ai : Nat → Bool × Int) (i : Nat) (st : GameState)
    (u : GameUnit) (nh : Hex) (rest : List Hex) (j : Nat) (enemy : GameUnit)
    (h1 : st.units[i]? = some u) (hmove : u.state = "moving")
    (hpath : u.path = nh :: rest)
    (hfind : findIndex (fun e => e.q == nh.q && e.r == nh.r && e.faction != u.faction)
      st.units = some j)
    (henemy : st.units[j]? = some enemy) :
    unitStep ai i st =
      { st with units := (st.units.set i (combatMover u enemy)).set j (combatTarget u enemy) } := by
  have hai : aiAdjust ai i st u = u := aiAdjust_not_idle ai i st u (by rw [hmove]; decide)
  have hset : st.units.set i u = st.units := list_set_self _ _ _ h1
  simp only [unitStep, h1, hai, hset]
  simp [moveResolve, hmove, hpath, hfind, henemy, combatMover, combatTarget]

theorem unitStep_move (ai : Nat → Bool × Int) (i : Nat) (st : GameState)
    (u : GameUnit) (nh : Hex) (rest : List Hex)
    (h1 : st.units[i]? = some u) (hmove : u.state = "moving")
    (hpath : u.path = nh :: rest)
    (hfind : findIndex (fun e => e.q == nh.q && e.r == nh.r && e.faction != u.faction)
      st.units = none) :
    (u.progress + u.stats.spd ≥ 1 →
      unitStep ai i st = { st with
        units := st.units.set i (commitMover u nh rest),
        hexes := conquerHex st.hexes nh.q nh.r u.faction }) ∧
    (¬ u.progress + u.stats.spd ≥ 1 →
      unitStep ai i st = { st with units := st.units.set i (stepMover u) }) := by
  have hai : aiAdjust ai i st u = u := aiAdjust_not_idle ai i st u (by rw [hmove]; decide)
  have hset : st.units.set i u = st.units := list_set_self _ _ _ h1
  constructor
  · intro hprog
    simp only [unitStep, h1, hai, hset]
    simp [moveResolve, hmove, hpath, hfind, hprog, commitMover]
  · intro hprog
    simp only [unitStep, h1, hai, hset]
    simp [moveResolve, hmove, hpath, hfind, hprog, stepMover]

theorem unitStep_inactive (ai : Nat → Bool × Int) (i : Nat) (st : GameState)
    (u : GameUnit) (h1 : st.units[i]? = some u)
    (hnm : u.state ≠ "moving")
    (hnoai : u.state ≠ "idle" ∨ (ai i).1 = false) :
    unitStep ai i st = st := by
  have hai : aiAdjust ai i st u = u := by
    rcases hnoai with hni | hroll
    · exact aiAdjust_not_idle ai i st u hni
    · exact aiAdjust_no_roll ai i st u hroll
  have hset : st.units.set i u = st.units := list_set_self _ _ _ h1
  simp only [unitStep, h1, hai, hset]
  simp [moveResolve, hnm]

theorem moveResolve_frame (i : Nat) (st1 : GameState) (u1 : GameUnit) :
    (moveResolve i st1 u1).players = st1.players ∧
    (moveResolve i st1 u1).countries = st1.countries ∧
    (moveResolve i st1 u1).isRunning = st1.isRunning ∧
    (moveResolve i st1 u1).unitIdCounter = st1.unitIdCounter ∧
    (moveResolve i st1 u1).units.length = st1.units.length := by
  refine ⟨?_, ?_, ?_, ?_, ?_⟩ <;> (unfold moveResolve; repeat' split) <;>
    solve
      | rfl
      | simp [List.length_set]
      | (by_cases hc : 1 ≤ u1.progress + u1.stats.spd <;> simp [hc, List.length_set])

theorem unitStep_frame (ai : Nat → Bool × Int) (i : Nat) (st : GameState) :
    (unitStep ai i st).players = st.players ∧
    (unitStep ai i st).countries = st.countries ∧
    (unitStep ai i st).isRunning = st.isRunning ∧
    (unitStep ai i st).unitIdCounter = st.unitIdCounter ∧
    (unitStep ai i st).units.length = st.units.length := by
  unfold unitStep
  cases h1 : st.units[i]? with
  | none => simp
  | some u =>
    dsimp only
    obtain ⟨hp, hc, hr, hu, hl⟩ :=
      moveResolve_frame i { st with units := st.units.set i (aiAdjust ai i st u) }
        (aiAdjust ai i st u)
    refine ⟨?_, ?_, ?_, ?_, ?_⟩
    · rw [hp]
    · rw [hc]
    · rw [hr]
    · rw [hu]
    · rw [hl]; simp [List.length_set]

theorem moveResolve_idleNoPath (i : Nat) (st1 : GameState) (u1 : GameUnit)
    (h : ∀ x ∈ st1.units, x.state = "idle" → x.path = []) :
    ∀ y ∈ (moveResolve i st1 u1).units, y.state = "idle" → y.path = [] := by
  unfold moveResolve
  split
  case isFalse => exact h
  case isTrue hmv =>
    split
    case h_1 => exact h
    case h_2 nextHex restPath heqpath =>
      split
      case h_1 j heqfind =>
        split
        case h_1 => exact h
        case h_2 enemy heqj =>
          intro y hy hst
          rcases mem_set_or _ _ _ _ hy with hy1 | rfl
          · rcases mem_set_or _ _ _ _ hy1 with hy2 | rfl
            · exact h y hy2 hst
            · have h' : u1.state = "idle" := hst
              rw [hmv] at h'
              exact absurd h' (by decide)
          · exact h enemy (getElem?_mem heqj) hst
      case h_2 heqfind =>
        dsimp only
        by_cases hprog : u1.progress + u1.stats.spd ≥ 1
        · rw [if_pos hprog]
          intro y hy hst
          rcases mem_set_or _ _ _ _ hy with hy1 | rfl
          · exact h y hy1 hst
          · by_cases hr : restPath.length = 0
            · show restPath = []
              exact List.length_eq_zero.mp hr
            · have h' : (if restPath.length = 0 then "idle" else u1.state) = "idle" := hst
              rw [if_neg hr, hmv] at h'
              exact absurd h' (by decide)
        · rw [if_neg hprog]
          intro y hy hst
          rcases mem_set_or _ _ _ _ hy with hy1 | rfl
          · exact h y hy1 hst
          · have h' : u1.state = "idle" := hst
            rw [hmv] at h'
            exact absurd h' (by decide)

theorem unitStep_idleNoPath (ai : Nat → Bool × Int) (i : Nat) (st : GameState)
    (h : ∀ x ∈ st.units, x.state = "idle" → x.path = []) :
    ∀ y ∈ (unitStep ai i st).units, y.state = "idle" → y.path = [] := by
  unfold unitStep
  cases h1 : st.units[i]? with
  | none => exact h
  | some u =>
    dsimp only
    apply moveResolve_idleNoPath
    intro x hx hst
    rcases mem_set_or _ _ _ _ hx with hx1 | rfl
    · exact h x hx1 hst
    · rcases aiAdjust_cases ai i st u with heq | ⟨pth, heq⟩
      · rw [heq] at hst ⊢
        exact h u (getElem?_mem h1) hst
      · rw [heq] at hst
        have h' : "moving" = "idle" := hst
        exact absurd h' (by decide)

/-! ## Tick-level lemmas -/

theorem accrueResources_units (s : GameState) : (accrueResources s).units = s.units := rfl

theorem accrueResources_isRunning (s : GameState) :
    (accrueResources s).isRunning = s.isRunning := rfl

theorem cleanupUnits_countries (s : GameState) :
    (cleanupUnits s).countries = s.countries := rfl

theorem unitsPhase_frame (ai : Nat → Bool × Int) (s : GameState) :
    (unitsPhase ai s).players = s.players ∧
    (unitsPhase ai s).countries = s.countries ∧
    (unitsPhase ai s).isRunning = s.isRunning ∧
    (unitsPhase ai s).unitIdCounter = s.unitIdCounter := by
  unfold unitsPhase
  refine foldl_preserves _ (fun st => st.players = s.players ∧ st.countries = s.countries ∧
    st.isRunning = s.isRunning ∧ st.unitIdCounter = s.unitIdCounter) ?_ _ s
    ⟨rfl, rfl, rfl, rfl⟩
  intro st i ⟨hp, hc, hr, hu⟩
  obtain ⟨hp', hc', hr', hu', _⟩ := unitStep_frame ai i st
  exact ⟨hp'.trans hp, hc'.trans hc, hr'.trans hr, hu'.trans hu⟩

theorem unitsPhase_idleNoPath (ai : Nat → Bool × Int) (s : GameState)
    (h : ∀ x ∈ s.units, x.state = "idle" → x.path = []) :
    ∀ y ∈ (unitsPhase ai s).units, y.state = "idle" → y.path = [] := by
  unfold unitsPhase
  exact foldl_preserves _ (fun st => ∀ x ∈ st.units, x.state = "idle" → x.path = [])
    (fun st i hst => unitStep_idleNoPath ai i st hst) _ s h

theorem tick_countries_eq (ai : Nat → Bool × Int) (s : GameState)
    (hrun : s.isRunning = true) :
    (tick ai s).countries = (accrueResources s).countries := by
  unfold tick
  rw [hrun]
  simp only [Bool.not_true, Bool.false_eq_true, if_false]
  rw [cleanupUnits_countries]
  exact (unitsPhase_frame ai (accrueResources s)).2.1

/-! ## Demo states -/

def demoPlayer : Player := ⟨"n", "KIN", "Supreme"⟩

/-- The state after the first player joins (which starts the match and seeds
the twelve initial units). -/
def demoState : GameState :=
  ((joinGame "a" demoPlayer initialGameState).toOption).getD initialGameState

instance : DecidableEq (Except String GameState) := fun a b =>
  match a, b with
  | .error e1, .error e2 =>
    if h : e1 = e2 then .isTrue (h ▸ rfl) else .isFalse (fun hc => h (Except.error.inj hc))
  | .ok v1, .ok v2 =>
    if h : v1 = v2 then .isTrue (h ▸ rfl) else .isFalse (fun hc => h (Except.ok.inj hc))
  | .error _, .ok _ => .isFalse (fun hc => Except.noConfusion hc)
  | .ok _, .error _ => .isFalse (fun hc => Except.noConfusion hc)

set_option maxRecDepth 8000 in
theorem demoState_join : joinGame "a" demoPlayer initialGameState = .ok demoState := by
  decide

theorem demoState_reach : Reach demoState :=
  Reach.joinStep Reach.init demoState_join

/-! ### Claim C5 -/

set_option maxRecDepth 8000 in
/-- Claim C5, counterexample: manpower (`mp`) does not accrue — the tick only
adds to `pp` and `eq`, so after a tick of the freshly started (reachable)
match the `mp` counter is not strictly larger. -/
theorem tick_manpower_unchanged_cex :
    Reach demoState ∧ demoState.isRunning = true ∧
    demoState.countries.KIN.mp = 5000 ∧
    ¬ demoState.countries.KIN.mp < (tick noAI demoState).countries.KIN.mp :=
  ⟨demoState_reach, by decide, by decide, by decide⟩

/-- Claim C5 (amended): each tick, for both factions, political points
increase by the fixed rate `0.1` and equipment by `1`, while manpower is
left unchanged by the tick (it only decreases through recruitment). -/
theorem tick_resource_rates (ai : Nat → Bool × Int) (s : GameState)
    (hrun : s.isRunning = true) :
    (tick ai s).countries.KIN.pp = s.countries.KIN.pp + 0.1 ∧
    (tick ai s).countries.KIN.eq = s.countries.KIN.eq + 1 ∧
    (tick ai s).countries.KIN.mp = s.countries.KIN.mp ∧
    (tick ai s).countries.TAK.pp = s.countries.TAK.pp + 0.1 ∧
    (tick ai s).countries.TAK.eq = s.countries.TAK.eq + 1 ∧
    (tick ai s).countries.TAK.mp = s.countries.TAK.mp := by
  rw [tick_countries_eq ai s hrun]
  exact ⟨rfl, rfl, rfl, rfl, rfl, rfl⟩

/-- Witness for C5 (amended) at the reachable post-join state. -/
theorem tick_resource_rates_witness :
    (tick noAI demoState).countries.KIN.pp = demoState.countries.KIN.pp + 0.1 ∧
    (tick noAI demoState).countries.KIN.eq = demoState.countries.KIN.eq + 1 ∧
    (tick noAI demoState).countries.KIN.mp = demoState.countries.KIN.mp ∧
    (tick noAI demoState).countries.TAK.pp = demoState.countries.TAK.pp + 0.1 ∧
    (tick noAI demoState).countries.TAK.eq = demoState.countries.TAK.eq + 1 ∧
    (tick noAI demoState).countries.TAK.mp = demoState.countries.TAK.mp :=
  tick_resource_rates noAI demoState (by decide)

/-! ### Claim C4 -/

set_option maxRecDepth 8000 in
/-- Claim C4 (the code crashes): in the reachable post-join state, the
joined player holds the authorized role `"Supreme"`, yet a `recruit` order
with the malformed unit type key `"xyz"` does not leave the state unchanged:
it throws (`UNIT_TYPES[type].cost` on `undefined`), modelled as
`Except.error`, instead of being rejected as a no-op. -/
theorem recruit_invalid_type_error :
    Reach demoState ∧
    lookupPlayer demoState.players "a" = some demoPlayer ∧
    demoPlayer.role = "Supreme" ∧
    recruit "a" "xyz" 0 demoState
      = .error "TypeError: cannot read cost of undefined" :=
  ⟨demoState_reach, by decide, rfl, by decide⟩

/-! ### Order lemmas for `DecRat` -/

theorem DecRat.not_le {x y : DecRat} (h : x < y) : ¬ y ≤ x := by
  rw [DecRat.lt_iff_toRat] at h
  rw [DecRat.le_iff_toRat]
  intro hle
  linarith

theorem DecRat.zero_toRat : (0 : DecRat).toRat = 0 := by
  simp [DecRat.toRat]
  rfl

theorem DecRat.sub_nonneg {x y : DecRat} (h : y ≤ x) : (0 : DecRat) ≤ x - y := by
  rw [DecRat.le_iff_toRat] at h ⊢
  rw [DecRat.sub_toRat, DecRat.zero_toRat]
  linarith

theorem countryOf_setCountry_cases (cs : Countries) (fac : String) (c : Country)
    (f : String) (c0 : Country)
    (h : countryOf (setCountry cs fac c) f = some c0) :
    c0 = c ∨ countryOf cs f = some c0 := by
  unfold countryOf setCountry at h
  split_ifs at h <;> simp_all [countryOf]

/-! ### Claim C8 -/

/-- Claim C8: a `recruit` order by a player whose faction lacks the
manpower cost (100) or the unit type's equipment cost is a strict no-op
(the returned state is the input state: no counter changes, no spawn), and
consequently a recruit that does go through, subtracting from counters it
was just checked against, never drives any counter negative. -/
theorem recruit_guard :
    (∀ (sid ty : String) (rr : Int) (s : GameState) (p : Player) (t : UnitStats)
      (c : Country),
      lookupPlayer s.players sid = some p →
      UNIT_TYPES ty = some t →
      countryOf s.countries p.faction = some c →
      (c.mp < 100 ∨ c.eq < t.cost) →
      recruit sid ty rr s = .ok s) ∧
    (∀ (sid ty : String) (rr : Int) (s s' : GameState),
      recruit sid ty rr s = .ok s' →
      (∀ f c, countryOf s.countries f = some c → 0 ≤ c.pp ∧ 0 ≤ c.mp ∧ 0 ≤ c.eq) →
      (∀ f c, countryOf s'.countries f = some c → 0 ≤ c.pp ∧ 0 ≤ c.mp ∧ 0 ≤ c.eq)) := by
  constructor
  · intro sid ty rr s p t c hlk hty hc hins
    have hcond : ¬(c.mp ≥ 100 ∧ c.eq ≥ t.cost) := by
      rcases hins with h | h
      · exact fun hand => DecRat.not_le h hand.1
      · exact fun hand => DecRat.not_le h hand.2
    simp only [recruit, hlk, hty, hc]
    split
    next => rfl
    next => rfl
  · intro sid ty rr s s' hrec hnn
    simp only [recruit] at hrec
    cases hlk : lookupPlayer s.players sid with
    | none =>
      rw [hlk] at hrec
      cases hrec
      exact hnn
    | some p =>
      rw [hlk] at hrec
      dsimp only at hrec
      split at hrec
      next =>
        cases hrec
        exact hnn
      next =>
        cases hty : UNIT_TYPES ty with
        | none => rw [hty] at hrec; exact Except.noConfusion hrec
        | some t =>
          rw [hty] at hrec
          cases hc : countryOf s.countries p.faction with
          | none => rw [hc] at hrec; exact Except.noConfusion hrec
          | some c =>
            rw [hc] at hrec
            dsimp only at hrec
            split at hrec
            next hcond =>
              -- success path: countries debited then spawn
              have hcty : s'.countries = setCountry s.countries p.faction
                  { c with mp := c.mp - 100, eq := c.eq - t.cost } := by
                unfold spawnUnit at hrec
                split at hrec
                next => cases hrec; rfl
                next =>
                  split at hrec
                  next => exact Except.noConfusion hrec
                  next => cases hrec; rfl
              intro f c0 hc0
              rw [hcty] at hc0
              have hcases : c0 = { c with mp := c.mp - 100, eq := c.eq - t.cost } ∨
                  countryOf s.countries f = some c0 :=
                countryOf_setCountry_cases _ _ _ _ _ hc0
              rcases hcases with rfl | hold
              · have hbase := hnn p.faction c hc
                exact ⟨hbase.1, DecRat.sub_nonneg hcond.1, DecRat.sub_nonneg hcond.2⟩
              · exact hnn f c0 hold
            next =>
              cases hrec
              exact hnn

/-- Witness for C8: in a state whose KIN treasury has only 50 manpower, an
authorized Production player's infantry recruit is the identity. -/
theorem recruit_guard_witness :
    recruit "a" "inf" 0
      { players := [("a", ⟨"n", "KIN", "Production"⟩)], hexes := createMap,
        units := [], countries := ⟨⟨50, 50, 2000, "#e67e22"⟩, ⟨50, 5000, 2000, "#27ae60"⟩⟩,
        isRunning := true, unitIdCounter := 0 }
      = .ok
      { players := [("a", ⟨"n", "KIN", "Production"⟩)], hexes := createMap,
        units := [], countries := ⟨⟨50, 50, 2000, "#e67e22"⟩, ⟨50, 5000, 2000, "#27ae60"⟩⟩,
        isRunning := true, unitIdCounter := 0 } :=
  recruit_guard.1 "a" "inf" 0 _ ⟨"n", "KIN", "Production"⟩
    ⟨"歩兵", 100, 12, 20, 0.2, 100⟩ ⟨50, 50, 2000, "#e67e22"⟩
    (by decide) (by decide) (by decide) (Or.inl (by decide))

/-! ### Claim C3 -/

def hex38 : Hex := ⟨38, 3, 2, "KIN"⟩

def hex50 : Hex := ⟨50, 4, 2, "KIN"⟩

def infStats : UnitStats := ⟨"歩兵", 100, 12, 20, 0.2, 100⟩

/-- A Supreme-controlled KIN infantry unit halfway (progress `0.5`) along a
two-cell path. -/
def midOrderState : GameState :=
  { players := [("a", demoPlayer)], hexes := createMap,
    units := [⟨0, "KIN", "inf", infStats, 100, 100, 2, 2, 0, 0, none,
      [hex38, hex50], "moving", 0.5, "Marshal_1"⟩],
    countries := initialGameState.countries, isRunning := true, unitIdCounter := 1 }

set_option maxRecDepth 8000 in
/-- Claim C3, counterexample: re-ordering the mid-path unit to `(3,2)`
replaces its path (the old two-cell path becomes the one-cell path) and sets
it moving, but its progress fraction stays `0.5` — it is *not* reset to 0. -/
theorem orderMove_progress_not_reset_cex :
    midOrderState.units.map (fun u => u.path) = [[hex38, hex50]] ∧
    (orderMove "a" [0] 3 2 midOrderState).units.map
      (fun u => (u.path, u.state, u.progress)) = [([hex38], "moving", 0.5)] ∧
    (0.5 : DecRat) ≠ 0 := by
  refine ⟨by decide, by decide, by decide⟩

/-- Claim C3 (amended): an authorized move order for a unit atomically
replaces the unit's path with the newly computed one and sets it moving —
no duplicate unit or second path is created (the unit list length is
unchanged and the unit is updated in place) — but the progress fraction is
left at its previous value rather than being reset to 0. -/
theorem orderMove_replaces_path (sid : String) (ids : List Nat) (tq tr : Int)
    (s : GameState) (p : Player) (tH : Hex)
    (hlk : lookupPlayer s.players sid = some p)
    (hth : getHex s.hexes tq tr = some tH) :
    (orderMove sid ids tq tr s).units.length = s.units.length ∧
    ∀ (i : Nat) (u : GameUnit), s.units[i]? = some u →
      ids.contains u.id = true → u.faction = p.faction →
      (p.role = "Supreme" ∨ p.role = u.assignment) →
      ∀ pth, findPath s.hexes (getHex s.hexes u.q u.r) (some tH) = some pth →
        (orderMove sid ids tq tr s).units[i]? =
          some { u with path := pth, state := "moving" } ∧
        ({ u with path := pth, state := "moving" } : GameUnit).progress = u.progress := by
  constructor
  · simp [orderMove, hlk, hth]
  · intro i u hu hcont hfac hrole pth hfp
    constructor
    · simp only [orderMove, hlk, hth, List.getElem?_map, hu, Option.map_some']
      rw [if_pos ⟨hcont, hfac⟩, if_pos hrole, hfp]
    · rfl

/-- Witness for C3 (amended) at the concrete mid-path state. -/
theorem orderMove_replaces_path_witness :
    (orderMove "a" [0] 3 2 midOrderState).units.length = midOrderState.units.length ∧
    (orderMove "a" [0] 3 2 midOrderState).units[0]? =
      some { (⟨0, "KIN", "inf", infStats, 100, 100, 2, 2, 0, 0, none,
        [hex38, hex50], "moving", 0.5, "Marshal_1"⟩ : GameUnit) with
        path := [hex38], state := "moving" } := by
  obtain ⟨hlen, hupd⟩ := orderMove_replaces_path "a" [0] 3 2 midOrderState demoPlayer
    ⟨38, 3, 2, "KIN"⟩ (by decide) (by decide)
  refine ⟨hlen, ?_⟩
  exact (hupd 0 _ (by decide) (by decide) (by decide) (Or.inl (by decide))
    [hex38] (by decide)).1

/-! ### Claim C2 -/

/-- A KIN infantry mover one step from `(3,2)`, where an idle TAK infantry
defender stands. -/
def combatState : GameState :=
  { players := [("a", demoPlayer)], hexes := createMap,
    units := [⟨0, "KIN", "inf", infStats, 100, 100, 2, 2, 0, 0, none,
        [hex38], "moving", 0.5, "Marshal_1"⟩,
      ⟨1, "TAK", "inf", infStats, 100, 100, 3, 2, 0, 0, none,
        [], "idle", 0, "Marshal_2"⟩],
    countries := initialGameState.countries, isRunning := true, unitIdCounter := 2 }

/-- Claim C2: with a moving unit `m` whose next path cell is occupied by an
enemy `d` (idle), one tick leaves exactly the two exchange results in the
registry: the mover loses `d.atk × 0.2` hp, the enemy loses `m.atk × 0.5`,
the mover's progress is zeroed (it does not advance), its path and `state`
tag are frozen, and the engagement persists (the surviving enemy still
occupies the next cell with an opposing faction), as long as both survive
the exchange. -/
theorem tick_combat_exchange (s : GameState) (m d : GameUnit) (nh : Hex)
    (rest : List Hex)
    (hus : s.units = [m, d]) (hrun : s.isRunning = true)
    (hmv : m.state = "moving") (hpath : m.path = nh :: rest)
    (hdq : d.q = nh.q) (hdr : d.r = nh.r) (hdf : d.faction ≠ m.faction)
    (hds : d.state = "idle")
    (hm : (0 : DecRat) < m.hp - d.stats.atk * 0.2)
    (hd : (0 : DecRat) < d.hp - m.stats.atk * 0.5) :
    (tick noAI s).units = [combatMover m d, combatTarget m d] ∧
    (combatMover m d).hp = m.hp - d.stats.atk * 0.2 ∧
    (combatTarget m d).hp = d.hp - m.stats.atk * 0.5 ∧
    (combatMover m d).path = m.path ∧
    (combatMover m d).state = m.state ∧
    (combatMover m d).progress = 0 ∧
    (combatTarget m d).q = nh.q ∧
    (combatTarget m d).r = nh.r ∧
    (combatTarget m d).faction ≠ (combatMover m d).faction ∧
    (combatTarget m d).state = "idle" := by
  have hA : (accrueResources s).units = [m, d] := by
    rw [accrueResources_units, hus]
  have h1 : (accrueResources s).units[0]? = some m := by rw [hA]; rfl
  have henemy : (accrueResources s).units[1]? = some d := by rw [hA]; rfl
  have hfind : findIndex (fun e => e.q == nh.q && e.r == nh.r && e.faction != m.faction)
      (accrueResources s).units = some 1 := by
    rw [hA]
    simp [findIndex, hdq, hdr, bne_iff_ne, hdf]
  have hstep0 := unitStep_combat noAI 0 (accrueResources s) m nh rest 1 d
    h1 hmv hpath hfind henemy
  have hstep0u : (unitStep noAI 0 (accrueResources s)).units =
      [combatMover m d, combatTarget m d] := by
    rw [hstep0]
    show ((accrueResources s).units.set 0 _).set 1 _ = _
    rw [hA]
    rfl
  have hB1 : (unitStep noAI 0 (accrueResources s)).units[1]? =
      some (combatTarget m d) := by
    rw [hstep0u]; rfl
  have hstep1 : unitStep noAI 1 (unitStep noAI 0 (accrueResources s)) =
      unitStep noAI 0 (accrueResources s) :=
    unitStep_inactive noAI 1 _ (combatTarget m d) hB1
      (by show d.state ≠ "moving"; rw [hds]; decide) (Or.inr rfl)
  have hlen : (accrueResources s).units.length = 2 := by rw [hA]; rfl
  have hphase : unitsPhase noAI (accrueResources s) =
      unitStep noAI 0 (accrueResources s) := by
    unfold unitsPhase
    rw [hlen]
    show unitStep noAI 1 (unitStep noAI 0 (accrueResources s)) = _
    rw [hstep1]
  have hmgt : decide ((combatMover m d).hp > 0) = true := decide_eq_true hm
  have hdgt : decide ((combatTarget m d).hp > 0) = true := decide_eq_true hd
  refine ⟨?_, rfl, rfl, rfl, rfl, rfl, hdq, hdr, hdf, hds⟩
  unfold tick
  simp only [hrun, Bool.not_true, Bool.false_eq_true, if_false]
  unfold cleanupUnits
  dsimp only
  rw [hphase, hstep0u]
  simp [List.filter, hmgt, hdgt]

/-- Witness for C2: the concrete exchange at `combatState` — both sides
infantry (`atk = 12`), the mover ends on `97.6` hp (`−2.4`) and the defender
on `94` (`−6`), with the mover still `"moving"` on its frozen path. -/
theorem tick_combat_exchange_witness :
    (tick noAI combatState).units.map (fun u => (u.hp, u.state, u.path, u.progress)) =
      [(97.6, "moving", [hex38], 0), (94, "idle", [], 0)] := by
  obtain ⟨hu, hhp1, hhp2, _⟩ := tick_combat_exchange combatState
    ⟨0, "KIN", "inf", infStats, 100, 100, 2, 2, 0, 0, none,
      [hex38], "moving", 0.5, "Marshal_1"⟩
    ⟨1, "TAK", "inf", infStats, 100, 100, 3, 2, 0, 0, none,
      [], "idle", 0, "Marshal_2"⟩
    hex38 [] rfl rfl rfl rfl rfl rfl (by decide) rfl (by decide) (by decide)
  rw [hu]
  decide

/-! ### Claim C7 -/

theorem getElem?_append_len {α : Type} (l1 l2 : List α) (n : Nat) :
    (l1 ++ l2)[l1.length + n]? = l2[n]? := by
  induction l1 with
  | nil => simp
  | cons a l ih => simp [List.cons_append, Nat.succ_add, ih]

theorem flStep_shape (p : Player) (ids : List Nat) (hexes targets : List Hex)
    (acc : List GameUnit × Nat) (u : GameUnit) :
    (¬(ids.contains u.id = true ∧ u.faction = p.faction ∧
        (p.role = "Supreme" ∨ p.role = u.assignment)) →
      ∃ k, flStep p ids hexes targets acc u = (acc.1 ++ [u], k)) ∧
    ((ids.contains u.id = true ∧ u.faction = p.faction ∧
        (p.role = "Supreme" ∨ p.role = u.assignment)) →
      flStep p ids hexes targets acc u =
        (acc.1 ++ [match findPath hexes (getHex hexes u.q u.r)
            targets[acc.2 % targets.length]? with
          | some pth => { u with path := pth, state := "moving" }
          | none => u], acc.2 + 1)) := by
  constructor
  · intro hn
    unfold flStep
    by_cases h1 : ids.contains u.id = true ∧ u.faction = p.faction
    · by_cases h2 : p.role = "Supreme" ∨ p.role = u.assignment
      · exact absurd ⟨h1.1, h1.2, h2⟩ hn
      · rw [if_pos h1, if_neg h2]; exact ⟨acc.2, rfl⟩
    · rw [if_neg h1]; exact ⟨acc.2, rfl⟩
  · rintro ⟨hc, hf, hr⟩
    unfold flStep
    rw [if_pos ⟨hc, hf⟩, if_pos hr]
    cases hfp : findPath hexes (getHex hexes u.q u.r)
        targets[acc.2 % targets.length]? with
    | none => rfl
    | some pth => rfl

theorem flStep_fold_prefix (p : Player) (ids : List Nat) (hexes targets : List Hex) :
    ∀ (us : List GameUnit) (acc : List GameUnit × Nat),
      ∃ tl, (us.foldl (flStep p ids hexes targets) acc).1 = acc.1 ++ tl := by
  intro us
  induction us with
  | nil => intro acc; exact ⟨[], by simp⟩
  | cons u0 us ih =>
    intro acc
    rw [List.foldl_cons]
    have hone : ∃ v k, flStep p ids hexes targets acc u0 = (acc.1 ++ [v], k) := by
      by_cases hfull : ids.contains u0.id = true ∧ u0.faction = p.faction ∧
          (p.role = "Supreme" ∨ p.role = u0.assignment)
      · exact ⟨_, _, (flStep_shape p ids hexes targets acc u0).2 hfull⟩
      · obtain ⟨k, hk⟩ := (flStep_shape p ids hexes targets acc u0).1 hfull
        exact ⟨u0, k, hk⟩
    obtain ⟨v, k, hk⟩ := hone
    obtain ⟨tl, htl⟩ := ih (flStep p ids hexes targets acc u0)
    refine ⟨v :: tl, ?_⟩
    rw [htl, hk]
    simp

theorem flStep_fold_spec (p : Player) (ids : List Nat) (hexes targets : List Hex) :
    ∀ (us : List GameUnit) (acc : List GameUnit × Nat),
      (us.foldl (flStep p ids hexes targets) acc).1.length = acc.1.length + us.length ∧
      ∀ (i : Nat) (u : GameUnit), us[i]? = some u →
        (¬(ids.contains u.id = true ∧ u.faction = p.faction ∧
            (p.role = "Supreme" ∨ p.role = u.assignment)) →
          (us.foldl (flStep p ids hexes targets) acc).1[acc.1.length + i]? = some u) ∧
        ((ids.contains u.id = true ∧ u.faction = p.faction ∧
            (p.role = "Supreme" ∨ p.role = u.assignment)) →
          ∃ (k : Nat),
            (us.foldl (flStep p ids hexes targets) acc).1[acc.1.length + i]? =
              some (match findPath hexes (getHex hexes u.q u.r)
                  targets[k % targets.length]? with
                | some pth => { u with path := pth, state := "moving" }
                | none => u)) := by
  intro us
  induction us with
  | nil =>
    intro acc
    refine ⟨by simp, ?_⟩
    intro i u hu
    simp at hu
  | cons u0 us ih =>
    intro acc
    rw [List.foldl_cons]
    have hone : ∃ v k, flStep p ids hexes targets acc u0 = (acc.1 ++ [v], k) ∧
        ((¬(ids.contains u0.id = true ∧ u0.faction = p.faction ∧
            (p.role = "Supreme" ∨ p.role = u0.assignment)) → v = u0) ∧
         ((ids.contains u0.id = true ∧ u0.faction = p.faction ∧
            (p.role = "Supreme" ∨ p.role = u0.assignment)) →
           v = match findPath hexes (getHex hexes u0.q u0.r)
              targets[acc.2 % targets.length]? with
            | some pth => { u0 with path := pth, state := "moving" }
            | none => u0)) := by
      by_cases hfull : ids.contains u0.id = true ∧ u0.faction = p.faction ∧
          (p.role = "Supreme" ∨ p.role = u0.assignment)
      · exact ⟨_, _, (flStep_shape p ids hexes targets acc u0).2 hfull,
          fun hn => absurd hfull hn, fun _ => rfl⟩
      · obtain ⟨k, hk⟩ := (flStep_shape p ids hexes targets acc u0).1 hfull
        exact ⟨u0, k, hk, fun _ => rfl, fun h => absurd h hfull⟩
    obtain ⟨v, k, hk, hvn, hva⟩ := hone
    obtain ⟨ihlen, ihidx⟩ := ih (flStep p ids hexes targets acc u0)
    have hacclen : (flStep p ids hexes targets acc u0).1.length = acc.1.length + 1 := by
      rw [hk]; simp
    constructor
    · rw [ihlen, hacclen]
      simp [Nat.add_assoc, Nat.add_comm 1 us.length]
    · intro i u hu
      cases i with
      | zero =>
        have hu0 : u0 = u := by simpa using hu
        subst hu0
        obtain ⟨tl, htl⟩ := flStep_fold_prefix p ids hexes targets us
          (flStep p ids hexes targets acc u0)
        rw [htl, hk]
        have hget : ((acc.1 ++ [v]) ++ tl)[acc.1.length + 0]? = some v := by
          rw [List.append_assoc, getElem?_append_len]
          simp
        constructor
        · intro hn
          rw [hget, hvn hn]
        · intro ha
          exact ⟨acc.2, by rw [hget, hva ha]⟩
      | succ j =>
        have huj : us[j]? = some u := by simpa using hu
        obtain ⟨hn', ha'⟩ := ihidx j u huj
        rw [hacclen] at hn' ha'
        have harr : acc.1.length + (j + 1) = acc.1.length + 1 + j := by omega
        rw [harr]
        exact ⟨hn', ha'⟩

set_option maxRecDepth 2000 in
/-- Claim C7: for both batch handlers (`orderMove`, `orderFrontline`), a
unit in the batch is modified only when the issuer's faction matches the
unit's and the issuer's role is `"Supreme"` or equals the unit's
`assignment`; every unauthorized unit is left exactly as it was (same index,
same record), while authorized units of the same batch are still processed
(path replaced with the computed one / round-robin frontline target), and
no unit is dropped or duplicated. -/
theorem order_authorization :
    (∀ (sid : String) (ids : List Nat) (tq tr : Int) (s : GameState) (p : Player),
      lookupPlayer s.players sid = some p →
      ∀ (i : Nat) (u : GameUnit), s.units[i]? = some u →
        (¬(u.faction = p.faction ∧ (p.role = "Supreme" ∨ p.role = u.assignment)) →
          (orderMove sid ids tq tr s).units[i]? = some u) ∧
        (∀ tH, getHex s.hexes tq tr = some tH →
          ids.contains u.id = true → u.faction = p.faction →
          (p.role = "Supreme" ∨ p.role = u.assignment) →
          ∀ pth, findPath s.hexes (getHex s.hexes u.q u.r) (some tH) = some pth →
            (orderMove sid ids tq tr s).units[i]? =
              some { u with path := pth, state := "moving" })) ∧
    (∀ (sid : String) (ids hids : List Nat) (s : GameState) (p : Player),
      lookupPlayer s.players sid = some p →
      (orderFrontline sid ids hids s).units.length = s.units.length ∧
      ∀ (i : Nat) (u : GameUnit), s.units[i]? = some u →
        (¬(ids.contains u.id = true ∧ u.faction = p.faction ∧
            (p.role = "Supreme" ∨ p.role = u.assignment)) →
          (orderFrontline sid ids hids s).units[i]? = some u) ∧
        ((flTargets s.hexes hids).length ≠ 0 →
          ids.contains u.id = true → u.faction = p.faction →
          (p.role = "Supreme" ∨ p.role = u.assignment) →
          ∃ (k : Nat),
            (orderFrontline sid ids hids s).units[i]? =
              some (match findPath s.hexes (getHex s.hexes u.q u.r)
                  (flTargets s.hexes hids)[k % (flTargets s.hexes hids).length]? with
                | some pth => { u with path := pth, state := "moving" }
                | none => u))) := by
  constructor
  · intro sid ids tq tr s p hlk i u hu
    constructor
    · intro hn
      unfold orderMove
      rw [hlk]
      cases hth : getHex s.hexes tq tr with
      | none => exact hu
      | some tH =>
        dsimp only
        rw [List.getElem?_map, hu, Option.map_some']
        by_cases h1 : ids.contains u.id = true ∧ u.faction = p.faction
        · rw [if_pos h1, if_neg (fun h2 => hn ⟨h1.2, h2⟩)]
        · rw [if_neg h1]
    · intro tH hth hcont hfac hrole pth hfp
      simp only [orderMove, hlk, hth, List.getElem?_map, hu, Option.map_some']
      rw [if_pos ⟨hcont, hfac⟩, if_pos hrole, hfp]
  · intro sid ids hids s p hlk
    unfold orderFrontline
    rw [hlk]
    dsimp only
    by_cases hlen : (flTargets s.hexes hids).length = 0
    · rw [if_pos hlen]
      refine ⟨rfl, ?_⟩
      intro i u hu
      exact ⟨fun _ => hu, fun h0 => absurd hlen h0⟩
    · rw [if_neg hlen]
      obtain ⟨hflen, hfidx⟩ :=
        flStep_fold_spec p ids s.hexes (flTargets s.hexes hids) s.units ([], 0)
      refine ⟨by rw [hflen]; simp, ?_⟩
      intro i u hu
      obtain ⟨hn', ha'⟩ := hfidx i u hu
      have hz : (([] : List GameUnit), 0).1.length + i = i := by simp
      rw [hz] at hn' ha'
      exact ⟨hn', fun _ hc hf hr => ha' ⟨hc, hf, hr⟩⟩

def mixedUnit0 : GameUnit :=
  ⟨0, "KIN", "inf", infStats, 100, 100, 2, 2, 0, 0, none, [], "idle", 0, "Marshal_1"⟩

def mixedUnit1 : GameUnit :=
  ⟨1, "KIN", "inf", infStats, 100, 100, 2, 3, 0, 0, none, [], "idle", 0, "Marshal_2"⟩

/-- A batch order state: the issuer is a KIN `"Marshal_1"` division
commander, unit 0 is in their division, unit 1 is KIN but in division
`"Marshal_2"` (unauthorized for this issuer). -/
def mixedOrderState : GameState :=
  { players := [("a", ⟨"n", "KIN", "Marshal_1"⟩)], hexes := createMap,
    units := [mixedUnit0, mixedUnit1],
    countries := initialGameState.countries, isRunning := true, unitIdCounter := 2 }

set_option maxRecDepth 8000 in
/-- Witness for C7: in the mixed batch `[0, 1]`, the division commander's
move and frontline orders update their own unit 0 but silently leave the
other division's unit 1 untouched. -/
theorem order_authorization_witness :
    (orderMove "a" [0, 1] 3 2 mixedOrderState).units[1]? = some mixedUnit1 ∧
    (orderMove "a" [0, 1] 3 2 mixedOrderState).units[0]? =
      some { mixedUnit0 with path := [hex38], state := "moving" } ∧
    (orderFrontline "a" [0, 1] [38] mixedOrderState).units.length =
      mixedOrderState.units.length ∧
    (orderFrontline "a" [0, 1] [38] mixedOrderState).units[1]? = some mixedUnit1 ∧
    (∃ (k : Nat),
      (orderFrontline "a" [0, 1] [38] mixedOrderState).units[0]? =
        some (match findPath mixedOrderState.hexes
            (getHex mixedOrderState.hexes mixedUnit0.q mixedUnit0.r)
            (flTargets mixedOrderState.hexes [38])[k %
              (flTargets mixedOrderState.hexes [38]).length]? with
          | some pth => { mixedUnit0 with path := pth, state := "moving" }
          | none => mixedUnit0)) := by
  have hmv := order_authorization.1 "a" [0, 1] 3 2 mixedOrderState
    ⟨"n", "KIN", "Marshal_1"⟩ (by decide)
  have hfl := order_authorization.2 "a" [0, 1] [38] mixedOrderState
    ⟨"n", "KIN", "Marshal_1"⟩ (by decide)
  refine ⟨(hmv 1 mixedUnit1 (by decide)).1 (by decide),
    (hmv 0 mixedUnit0 (by decide)).2 hex38 (by decide) (by decide) (by decide)
      (Or.inr (by decide)) [hex38] (by decide),
    hfl.1, (hfl.2 1 mixedUnit1 (by decide)).1 (by decide),
    (hfl.2 0 mixedUnit0 (by decide)).2 (by decide) (by decide) (by decide)
      (Or.inr (by decide))⟩

/-! ### Claim C6 -/

theorem except_bind_ok {α : Type} {x : Except String α} {f : α → Except String α}
    {b : α} (h : (x >>= f) = .ok b) : ∃ a, x = .ok a ∧ f a = .ok b := by
  cases x with
  | error e => exact absurd h (by simp [Bind.bind, Except.bind])
  | ok a => exact ⟨a, rfl, by simpa [Bind.bind, Except.bind] using h⟩

theorem spawnUnit_idleNoPath (f : String) (q r : Int) (ty : String)
    (s s' : GameState) (heq : spawnUnit f q r ty s = .ok s')
    (h : ∀ x ∈ s.units, x.state = "idle" → x.path = []) :
    ∀ y ∈ s'.units, y.state = "idle" → y.path = [] := by
  unfold spawnUnit at heq
  split at heq
  next => cases heq; exact h
  next hx =>
    split at heq
    next => exact Except.noConfusion heq
    next t hty =>
      cases heq
      intro y hy
      rcases List.mem_append.mp hy with hy1 | hy2
      · exact h y hy1
      · rcases List.mem_singleton.mp hy2 with rfl
        intro _
        rfl

theorem resetGame_idleNoPath (s s' : GameState) (h : resetGame s = .ok s') :
    ∀ y ∈ s'.units, y.state = "idle" → y.path = [] := by
  unfold resetGame at h
  obtain ⟨s1, h1, h2⟩ := except_bind_ok h
  obtain ⟨s2, h2a, h2b⟩ := except_bind_ok h2
  have hs2 : s2 = s' := Except.ok.inj h2b
  rw [hs2] at h2a
  have hP1 : ∀ x ∈ s1.units, x.state = "idle" → x.path = [] := by
    refine foldlM_except_preserves _ (fun st => ∀ x ∈ st.units, x.state = "idle" → x.path = [])
      ?_ _ _ s1 h1 ?_
    · intro st b st' hg hst
      exact spawnUnit_idleNoPath _ _ _ _ _ _ hg hst
    · intro x hx
      simp at hx
  refine foldlM_except_preserves _ (fun st => ∀ x ∈ st.units, x.state = "idle" → x.path = [])
    ?_ _ _ s' h2a hP1
  intro st b st' hg hst
  exact spawnUnit_idleNoPath _ _ _ _ _ _ hg hst

theorem joinGame_idleNoPath (sid : String) (info : Player) (s s' : GameState)
    (heq : joinGame sid info s = .ok s')
    (h : ∀ x ∈ s.units, x.state = "idle" → x.path = []) :
    ∀ y ∈ s'.units, y.state = "idle" → y.path = [] := by
  simp only [joinGame] at heq
  split at heq
  next => exact resetGame_idleNoPath _ _ heq
  next => cases heq; exact h

theorem recruit_idleNoPath (sid ty : String) (rr : Int) (s s' : GameState)
    (heq : recruit sid ty rr s = .ok s')
    (h : ∀ x ∈ s.units, x.state = "idle" → x.path = []) :
    ∀ y ∈ s'.units, y.state = "idle" → y.path = [] := by
  unfold recruit at heq
  split at heq
  next => cases heq; exact h
  next p hlk =>
    split at heq
    next => cases heq; exact h
    next =>
      split at heq
      next => exact Except.noConfusion heq
      next t hty =>
        split at heq
        next => exact Except.noConfusion heq
        next c hc =>
          split at heq
          next => exact spawnUnit_idleNoPath _ _ _ _ _ _ heq h
          next => cases heq; exact h

theorem orderMove_idleNoPath (sid : String) (ids : List Nat) (tq tr : Int)
    (s : GameState) (h : ∀ x ∈ s.units, x.state = "idle" → x.path = []) :
    ∀ y ∈ (orderMove sid ids tq tr s).units, y.state = "idle" → y.path = [] := by
  unfold orderMove
  split
  next => exact h
  next p hlk =>
    split
    next => exact h
    next tH hth =>
      intro y hy
      obtain ⟨x, hx, hfx⟩ := List.mem_map.mp hy
      by_cases h1 : ids.contains x.id = true ∧ x.faction = p.faction
      · by_cases h2 : p.role = "Supreme" ∨ p.role = x.assignment
        · rw [if_pos h1, if_pos h2] at hfx
          cases hfp : findPath s.hexes (getHex s.hexes x.q x.r) (some tH) with
          | none =>
            rw [hfp] at hfx
            exact hfx ▸ h x hx
          | some pth =>
            rw [hfp] at hfx
            subst hfx
            intro hst
            have hst' : "moving" = "idle" := hst
            exact absurd hst' (by decide)
        · rw [if_pos h1, if_neg h2] at hfx
          exact hfx ▸ h x hx
      · rw [if_neg h1] at hfx
        exact hfx ▸ h x hx

theorem flStep_out (p : Player) (ids : List Nat) (hexes targets : List Hex)
    (acc : List GameUnit × Nat) (u : GameUnit) :
    ∃ v k, flStep p ids hexes targets acc u = (acc.1 ++ [v], k) ∧
      (v = u ∨ ∃ pth, v = { u with path := pth, state := "moving" }) := by
  unfold flStep
  by_cases h1 : ids.contains u.id = true ∧ u.faction = p.faction
  · by_cases h2 : p.role = "Supreme" ∨ p.role = u.assignment
    · rw [if_pos h1, if_pos h2]
      cases hfp : findPath hexes (getHex hexes u.q u.r)
          targets[acc.2 % targets.length]? with
      | none => exact ⟨u, acc.2 + 1, rfl, Or.inl rfl⟩
      | some pth => exact ⟨_, acc.2 + 1, rfl, Or.inr ⟨pth, rfl⟩⟩
    · rw [if_pos h1, if_neg h2]; exact ⟨u, acc.2, rfl, Or.inl rfl⟩
  · rw [if_neg h1]; exact ⟨u, acc.2, rfl, Or.inl rfl⟩

theorem flStep_fold_mem (p : Player) (ids : List Nat) (hexes targets : List Hex) :
    ∀ (us : List GameUnit) (acc : List GameUnit × Nat),
      ∀ y ∈ (us.foldl (flStep p ids hexes targets) acc).1,
        y ∈ acc.1 ∨ ∃ x ∈ us, y = x ∨ ∃ pth, y = { x with path := pth, state := "moving" } := by
  intro us
  induction us with
  | nil =>
    intro acc y hy
    exact Or.inl hy
  | cons u0 us ih =>
    intro acc y hy
    rw [List.foldl_cons] at hy
    obtain ⟨v, k, hk, hv⟩ := flStep_out p ids hexes targets acc u0
    rcases ih (flStep p ids hexes targets acc u0) y hy with hy1 | ⟨x, hx, hcase⟩
    · rw [hk] at hy1
      rcases List.mem_append.mp hy1 with hy2 | hy3
      · exact Or.inl hy2
      · rcases List.mem_singleton.mp hy3 with rfl
        rcases hv with hvu | ⟨pth, hvu⟩
        · exact Or.inr ⟨u0, List.mem_cons_self _ _, Or.inl hvu⟩
        · exact Or.inr ⟨u0, List.mem_cons_self _ _, Or.inr ⟨pth, hvu⟩⟩
    · exact Or.inr ⟨x, List.mem_cons_of_mem _ hx, hcase⟩

theorem orderFrontline_idleNoPath (sid : String) (ids hids : List Nat)
    (s : GameState) (h : ∀ x ∈ s.units, x.state = "idle" → x.path = []) :
    ∀ y ∈ (orderFrontline sid ids hids s).units, y.state = "idle" → y.path = [] := by
  unfold orderFrontline
  split
  next => exact h
  next p hlk =>
    dsimp only
    split
    next => exact h
    next =>
      intro y hy
      rcases flStep_fold_mem p ids s.hexes (flTargets s.hexes hids) s.units ([], 0) y hy with
        hy0 | ⟨x, hx, hcase⟩
      · simp at hy0
      · rcases hcase with hyx | ⟨pth, hyx⟩
        · exact hyx ▸ h x hx
        · rw [hyx]
          intro hst
          have hst' : "moving" = "idle" := hst
          exact absurd hst' (by decide)

theorem tick_idleNoPath (ai : Nat → Bool × Int) (s : GameState)
    (h : ∀ x ∈ s.units, x.state = "idle" → x.path = []) :
    ∀ y ∈ (tick ai s).units, y.state = "idle" → y.path = [] := by
  unfold tick
  split
  next => exact h
  next =>
    intro y hy
    have hy' : y ∈ (unitsPhase ai (accrueResources s)).units :=
      (List.mem_filter.mp hy).1
    refine unitsPhase_idleNoPath ai (accrueResources s) ?_ y hy'
    rw [accrueResources_units]
    exact h

set_option maxRecDepth 8000 in
/-- Claim C6, counterexample: ordering a unit to the cell it already stands
on is authorized and `findPath` returns the empty route (the JS `if (path)`
is truthy for `[]`), so the unit ends up in state `"moving"` with an *empty*
path — in a reachable state — contradicting "every Moving unit has a
non-empty path". -/
theorem moving_unit_empty_path_cex :
    Reach (orderMove "a" [0] 2 2 demoState) ∧
    ((orderMove "a" [0] 2 2 demoState).units.map (fun u => (u.state, u.path)))[0]? =
      some ("moving", ([] : List Hex)) :=
  ⟨Reach.moveStep demoState_reach, by decide⟩

/-- Claim C6 (amended): in every reachable state, every unit whose `state`
tag is `"idle"` has an empty path (the Idle half of the invariant holds);
and a moving unit that commits its final path cell (no blocking enemy,
progress reaching `1.0`) transitions to `"idle"` with an empty path.  The
Moving half of the original claim is false: a Moving unit can have an empty
path (see the counterexample). -/
theorem idle_no_path_invariant :
    (∀ s, Reach s → ∀ u ∈ s.units, u.state = "idle" → u.path = []) ∧
    (∀ (ai : Nat → Bool × Int) (i : Nat) (st : GameState) (u : GameUnit) (nh : Hex),
      st.units[i]? = some u → u.state = "moving" → u.path = [nh] →
      findIndex (fun e => e.q == nh.q && e.r == nh.r && e.faction != u.faction)
        st.units = none →
      u.progress + u.stats.spd ≥ 1 →
      (unitStep ai i st).units[i]? = some (commitMover u nh []) ∧
      (commitMover u nh []).state = "idle" ∧
      (commitMover u nh []).path = []) := by
  constructor
  · intro s hs
    induction hs with
    | init => intro u hu _; simp [initialGameState] at hu
    | joinStep _ heq ih => exact joinGame_idleNoPath _ _ _ _ heq ih
    | recruitStep _ heq ih => exact recruit_idleNoPath _ _ _ _ _ heq ih
    | moveStep _ ih => exact orderMove_idleNoPath _ _ _ _ _ ih
    | frontStep _ ih => exact orderFrontline_idleNoPath _ _ _ _ ih
    | tickStep _ ih => exact tick_idleNoPath _ _ ih
    | discStep _ ih => exact ih
  · intro ai i st u nh hu hmv hpath hfind hprog
    have hcommit := (unitStep_move ai i st u nh [] hu hmv hpath hfind).1 hprog
    refine ⟨?_, rfl, rfl⟩
    rw [hcommit]
    show (st.units.set i _)[i]? = _
    exact set_getElem?_eq _ _ _ (List.getElem?_eq_some.mp hu).1

/-- A lone KIN infantry mover one commit-step (`0.9 + 0.2 ≥ 1`) from the end
of its single-cell path. -/
def commitState : GameState :=
  { players := [("a", demoPlayer)], hexes := createMap,
    units := [⟨0, "KIN", "inf", infStats, 100, 100, 2, 2, 0, 0, none,
      [hex38], "moving", 0.9, "Marshal_1"⟩],
    countries := initialGameState.countries, isRunning := true, unitIdCounter := 1 }

set_option maxRecDepth 8000 in
/-- Witness for C6 (amended): the Idle half at the reachable post-join
state, and a concrete final-cell commit that lands in `"idle"` with an
empty path. -/
theorem idle_no_path_invariant_witness :
    (∀ u ∈ demoState.units, u.state = "idle" → u.path = []) ∧
    (unitStep noAI 0 commitState).units[0]? =
      some (commitMover ⟨0, "KIN", "inf", infStats, 100, 100, 2, 2, 0, 0, none,
        [hex38], "moving", 0.9, "Marshal_1"⟩ hex38 []) :=
  ⟨idle_no_path_invariant.1 demoState demoState_reach,
    (idle_no_path_invariant.2 noAI 0 commitState
      ⟨0, "KIN", "inf", infStats, 100, 100, 2, 2, 0, 0, none,
        [hex38], "moving", 0.9, "Marshal_1"⟩ hex38
      (by decide) rfl rfl (by decide) (by decide)).1⟩

/-! ### Claim C9 -/

theorem tick_units_filter (ai : Nat → Bool × Int) (s : GameState)
    (hrun : s.isRunning = true) :
    (tick ai s).units = (unitsPhase ai (accrueResources s)).units.filter
      (fun u => decide (u.hp > 0)) := by
  unfold tick
  simp only [hrun, Bool.not_true, Bool.false_eq_true, if_false]
  rfl

theorem moveResolve_hp (i : Nat) (st1 : GameState) (u1 : GameUnit) :
    (moveResolve i st1 u1).units = st1.units ∨
    (∃ w, w.hp = u1.hp ∧ (moveResolve i st1 u1).units = st1.units.set i w) ∨
    (∃ nh rest j enemy, u1.path = nh :: rest ∧
      findIndex (fun e => e.q == nh.q && e.r == nh.r && e.faction != u1.faction)
        st1.units = some j ∧
      st1.units[j]? = some enemy ∧
      (moveResolve i st1 u1).units =
        (st1.units.set i (combatMover u1 enemy)).set j (combatTarget u1 enemy)) := by
  unfold moveResolve
  split
  case isFalse => exact Or.inl rfl
  case isTrue hmv =>
    split
    case h_1 => exact Or.inl rfl
    case h_2 nh rest hpath =>
      split
      case h_1 j hfind =>
        split
        case h_1 => exact Or.inl rfl
        case h_2 enemy hj =>
          exact Or.inr (Or.inr ⟨nh, rest, j, enemy, hpath, hfind, hj, rfl⟩)
      case h_2 hfind =>
        dsimp only
        by_cases hprog : u1.progress + u1.stats.spd ≥ 1
        · rw [if_pos hprog]
          exact Or.inr (Or.inl ⟨commitMover u1 nh rest, rfl, rfl⟩)
        · rw [if_neg hprog]
          exact Or.inr (Or.inl ⟨stepMover u1, rfl, rfl⟩)

set_option maxRecDepth 2000 in
/-- A tick where the first mover kills the low-hp defender and a second
mover still fights the corpse before the single end-of-tick cleanup. -/
def deadState : GameState :=
  { players := [("a", demoPlayer)], hexes := createMap,
    units := [⟨0, "KIN", "inf", infStats, 100, 100, 2, 2, 0, 0, none,
        [hex38], "moving", 0, "Marshal_1"⟩,
      ⟨1, "TAK", "inf", infStats, 5, 100, 3, 2, 0, 0, none,
        [], "idle", 0, "Marshal_2"⟩,
      ⟨2, "KIN", "inf", infStats, 100, 100, 4, 2, 0, 0, none,
        [hex38], "moving", 0, "Marshal_3"⟩],
    countries := initialGameState.countries, isRunning := true, unitIdCounter := 3 }

set_option maxRecDepth 4000 in
/-- Claim C9: dead units are removed exactly once per tick, after the whole
per-unit pass — the tick's unit registry is literally the post-pass registry
filtered by `hp > 0` (so a unit is kept iff its hp is positive); within the
pass, one unit's step either leaves every unit's hp unchanged or is a combat
exchange, mutating exactly two hp values by the formulas `−enemy.atk × 0.2`
(mover) and `−mover.atk × 0.5` (stationary enemy); and a unit killed early
in the pass still engages later movers of the same tick, as the concrete
two-mover scenario shows. -/
theorem combat_hp_accounting :
    (∀ (ai : Nat → Bool × Int) (s : GameState), s.isRunning = true →
      (tick ai s).units = (unitsPhase ai (accrueResources s)).units.filter
        (fun u => decide (u.hp > 0))) ∧
    (∀ (ai : Nat → Bool × Int) (s : GameState) (u : GameUnit), s.isRunning = true →
      (u ∈ (tick ai s).units ↔
        u ∈ (unitsPhase ai (accrueResources s)).units ∧ u.hp > 0)) ∧
    (∀ (ai : Nat → Bool × Int) (i : Nat) (st : GameState),
      (∀ (k : Nat), ((unitStep ai i st).units[k]?).map (fun x => x.hp) =
        (st.units[k]?).map (fun x => x.hp)) ∨
      (∃ u j enemy, i ≠ j ∧ st.units[i]? = some u ∧ st.units[j]? = some enemy ∧
        ((unitStep ai i st).units[i]?).map (fun x => x.hp) =
          some (u.hp - enemy.stats.atk * 0.2) ∧
        ((unitStep ai i st).units[j]?).map (fun x => x.hp) =
          some (enemy.hp - u.stats.atk * 0.5) ∧
        ∀ (k : Nat), k ≠ i → k ≠ j →
          ((unitStep ai i st).units[k]?).map (fun x => x.hp) =
            (st.units[k]?).map (fun x => x.hp))) ∧
    ((tick noAI deadState).units.map (fun u => (u.id, u.hp)) =
      [(0, 97.6), (2, 97.6)]) := by
  refine ⟨?_, ?_, ?_, by decide⟩
  · intro ai s hrun
    exact tick_units_filter ai s hrun
  · intro ai s u hrun
    rw [tick_units_filter ai s hrun]
    simp [List.mem_filter]
  · intro ai i st
    cases hu : st.units[i]? with
    | none =>
      left
      intro k
      have hst : unitStep ai i st = st := by
        unfold unitStep
        rw [hu]
      rw [hst]
    | some u =>
      have hilt : i < st.units.length := (List.getElem?_eq_some.mp hu).1
      have hstep : (unitStep ai i st).units =
          (moveResolve i { st with units := st.units.set i (aiAdjust ai i st u) }
            (aiAdjust ai i st u)).units := by
        unfold unitStep
        rw [hu]
      have hhp : (aiAdjust ai i st u).hp = u.hp := by
        rcases aiAdjust_cases ai i st u with heq | ⟨pth, heq⟩ <;> rw [heq]
      have hstats : (aiAdjust ai i st u).stats = u.stats := by
        rcases aiAdjust_cases ai i st u with heq | ⟨pth, heq⟩ <;> rw [heq]
      rcases moveResolve_hp i { st with units := st.units.set i (aiAdjust ai i st u) }
          (aiAdjust ai i st u) with hc | ⟨w, hw, hc⟩ |
          ⟨nh, rest, j, enemy, hpath, hfind, hj, hc⟩
      · left
        intro k
        rw [hstep, hc]
        show ((st.units.set i (aiAdjust ai i st u))[k]?).map _ = _
        by_cases hk : k = i
        · subst hk
          rw [set_getElem?_eq _ _ _ hilt, hu, Option.map_some', Option.map_some', hhp]
        · rw [set_getElem?_ne _ _ _ _ (fun he => hk he.symm)]
      · left
        intro k
        rw [hstep, hc]
        show (((st.units.set i (aiAdjust ai i st u)).set i w)[k]?).map _ = _
        rw [List.set_set]
        by_cases hk : k = i
        · subst hk
          rw [set_getElem?_eq _ _ _ hilt, hu, Option.map_some', Option.map_some', hw, hhp]
        · rw [set_getElem?_ne _ _ _ _ (fun he => hk he.symm)]
      · right
        obtain ⟨x, hx, hpx⟩ := findIndex_eq_some_spec hfind
        have hij : i ≠ j := by
          intro he
          subst he
          have hx' : (st.units.set i (aiAdjust ai i st u))[i]? = some x := hx
          rw [set_getElem?_eq _ _ _ hilt] at hx'
          cases Option.some.inj hx'
          simp at hpx
        have hjst : ({ st with units := st.units.set i (aiAdjust ai i st u) }).units[j]? =
            st.units[j]? := set_getElem?_ne _ _ _ _ hij
        rw [hjst] at hj
        have hjlt : j < st.units.length := (List.getElem?_eq_some.mp hj).1
        refine ⟨u, j, enemy, hij, rfl, hj, ?_, ?_, ?_⟩
        · rw [hstep, hc]
          show ((((st.units.set i (aiAdjust ai i st u)).set i
              (combatMover (aiAdjust ai i st u) enemy)).set j
              (combatTarget (aiAdjust ai i st u) enemy))[i]?).map _ = _
          rw [List.set_set, set_getElem?_ne _ _ _ _ (fun he => hij he.symm),
            set_getElem?_eq _ _ _ hilt, Option.map_some']
          show some ((aiAdjust ai i st u).hp - enemy.stats.atk * 0.2) = _
          rw [hhp]
        · rw [hstep, hc]
          show ((((st.units.set i (aiAdjust ai i st u)).set i
              (combatMover (aiAdjust ai i st u) enemy)).set j
              (combatTarget (aiAdjust ai i st u) enemy))[j]?).map _ = _
          have hjlt2 : j < ((st.units.set i (aiAdjust ai i st u)).set i
              (combatMover (aiAdjust ai i st u) enemy)).length := by
            simpa [List.length_set] using hjlt
          rw [set_getElem?_eq _ _ _ hjlt2, Option.map_some']
          show some (enemy.hp - (aiAdjust ai i st u).stats.atk * 0.5) = _
          rw [hstats]
        · intro k hki hkj
          rw [hstep, hc]
          show ((((st.units.set i (aiAdjust ai i st u)).set i
              (combatMover (aiAdjust ai i st u) enemy)).set j
              (combatTarget (aiAdjust ai i st u) enemy))[k]?).map _ = _
          rw [List.set_set, set_getElem?_ne _ _ _ _ (fun he => hkj he.symm),
            set_getElem?_ne _ _ _ _ (fun he => hki he.symm)]

/-- Witness for C9 at the reachable post-join state: the tick's registry is
the post-pass registry filtered by positive hp. -/
theorem combat_hp_accounting_witness :
    (tick noAI demoState).units =
      (unitsPhase noAI (accrueResources demoState)).units.filter
        (fun u => decide (u.hp > 0)) :=
  combat_hp_accounting.1 noAI demoState (by decide)

/-! ### Claim C10 -/

def stackMover : GameUnit :=
  ⟨0, "KIN", "inf", infStats, 100, 100, 2, 2, 0, 0, none,
    [hex38], "moving", 0.9, "Marshal_1"⟩

def stackFriend : GameUnit :=
  ⟨1, "KIN", "inf", infStats, 100, 100, 3, 2, 0, 0, none,
    [], "idle", 0, "Marshal_2"⟩

/-- A same-faction unit already stands on the mover's next (and final) path
cell; the mover is one commit-step from entering it. -/
def stackState : GameState :=
  { players := [("a", demoPlayer)], hexes := createMap,
    units := [stackMover, stackFriend],
    countries := initialGameState.countries, isRunning := true, unitIdCounter := 2 }

set_option maxRecDepth 4000 in
/-- Claim C10: only an enemy-faction unit on the immediate next path cell
triggers combat — when every unit on that cell shares the mover's faction
the enemy lookup finds nothing and the step is the pure move (progress
accrual, or an unconditional commit with no occupancy check); conversely a
hit in the lookup really is an enemy standing on the next cell.  The
concrete scenario shows two same-faction units ending on the same cell
after a commit. -/
theorem same_faction_no_block :
    (∀ (ai : Nat → Bool × Int) (i : Nat) (st : GameState) (u : GameUnit)
      (nh : Hex) (rest : List Hex),
      st.units[i]? = some u → u.state = "moving" → u.path = nh :: rest →
      (∀ x ∈ st.units, x.q = nh.q ∧ x.r = nh.r → x.faction = u.faction) →
      findIndex (fun e => e.q == nh.q && e.r == nh.r && e.faction != u.faction)
        st.units = none ∧
      (u.progress + u.stats.spd ≥ 1 →
        unitStep ai i st = { st with
          units := st.units.set i (commitMover u nh rest),
          hexes := conquerHex st.hexes nh.q nh.r u.faction }) ∧
      (¬ u.progress + u.stats.spd ≥ 1 →
        unitStep ai i st = { st with units := st.units.set i (stepMover u) })) ∧
    (∀ (st1 : GameState) (u1 : GameUnit) (nh : Hex) (j : Nat),
      findIndex (fun e => e.q == nh.q && e.r == nh.r && e.faction != u1.faction)
        st1.units = some j →
      ∃ enemy, st1.units[j]? = some enemy ∧ enemy.q = nh.q ∧ enemy.r = nh.r ∧
        enemy.faction ≠ u1.faction) ∧
    ((tick noAI stackState).units.map (fun u => (u.q, u.r, u.faction)) =
      [(3, 2, "KIN"), (3, 2, "KIN")]) := by
  refine ⟨?_, ?_, by decide⟩
  · intro ai i st u nh rest hu hmv hpath hall
    have hfind : findIndex
        (fun e => e.q == nh.q && e.r == nh.r && e.faction != u.faction)
        st.units = none := by
      rw [findIndex_eq_none_iff]
      intro x hx
      by_cases hpos : x.q = nh.q ∧ x.r = nh.r
      · have hfac := hall x hx hpos
        simp [hpos.1, hpos.2, hfac]
      · have hor : (x.q == nh.q) = false ∨ (x.r == nh.r) = false := by
          rcases not_and_or.mp hpos with hq | hr
          · exact Or.inl (beq_eq_false_iff_ne.mpr hq)
          · exact Or.inr (beq_eq_false_iff_ne.mpr hr)
        rcases hor with h' | h' <;> simp [h']
    obtain ⟨hcommit, hstep⟩ := unitStep_move ai i st u nh rest hu hmv hpath hfind
    exact ⟨hfind, hcommit, hstep⟩
  · intro st1 u1 nh j hf
    obtain ⟨x, hx, hpx⟩ := findIndex_eq_some_spec hf
    simp only [Bool.and_eq_true, beq_iff_eq, bne_iff_ne] at hpx
    exact ⟨x, hx, hpx.1.1, hpx.1.2, hpx.2⟩

set_option maxRecDepth 4000 in
/-- Witness for C10: in the stacking scenario the enemy lookup comes up
empty (the occupant of the next cell is a friend) and the mover's step is
the unconditional commit onto the occupied cell. -/
theorem same_faction_no_block_witness :
    findIndex (fun e => e.q == hex38.q && e.r == hex38.r &&
      e.faction != stackMover.faction) stackState.units = none ∧
    unitStep noAI 0 stackState = { stackState with
      units := stackState.units.set 0 (commitMover stackMover hex38 []),
      hexes := conquerHex stackState.hexes hex38.q hex38.r stackMover.faction } := by
  obtain ⟨hf, hcommit, _⟩ := same_faction_no_block.1 noAI 0 stackState stackMover
    hex38 [] rfl rfl rfl (by decide)
  exact ⟨hf, hcommit (by decide)⟩
